import Mathlib

/-!
# URL shortener: base-62 codes, the in-memory mapping store and the shortening service

A shallow embedding of the Go packages `pkg/base62`, `internal/storage` and
`internal/service` of the `url-shortener` module, followed by the properties
proved about them.

Conventions of the embedding.

* A Go `string` and a Go `[]byte` are lists of bytes (`GoString`); a byte is a
  `Fin 256`.
* An `int64` is an `Int`; the one place where the code can leave the `int64`
  range (`s.counter++`) wraps explicitly with `wrapInt64`.
* A method with a pointer receiver takes the receiver's state and returns the
  state after the call next to its Go results.  Locks are not values of the
  model: a sequential call runs alone from its first to its last statement,
  and simultaneous callers of `ShortenURL` interleave at its three locked
  sections (`Caller`, `Step`, `Interleaving`).
* The package `internal/config` is not part of the sources at hand, so the
  constant `config.Base62Chars` is a parameter `Base62Chars` of every
  definition that reads it.
* A Go run that does not return (a run-time panic, a loop without end) is the
  result `none`.
* `Service` holds an `InMemoryStorage`, the one implementation of the
  interface `Storage` in the module; `ShortenURLOver` is the same method over
  any implementation of the interface.
-/

namespace UrlShortener

/-! ## Go values -/

/-- A Go `byte` (`uint8`). -/
abbrev Byte := Fin 256

/-- A Go `string` (and a `[]byte`): a finite sequence of bytes. -/
abbrev GoString := List Byte

/-- The least `int64`. -/
def minInt64 : Int := -(2 ^ 63)

/-- The greatest `int64`. -/
def maxInt64 : Int := 2 ^ 63 - 1

/-- Two's-complement wrap-around of an integer into the `int64` range, as Go
arithmetic on `int64` does on overflow. -/
def wrapInt64 (x : Int) : Int := (x + 2 ^ 63) % 2 ^ 64 - 2 ^ 63

/-- The Go conversion `string(b)` of a byte `b`: the UTF-8 encoding of the code
point `b`, which is the single byte `b` below `0x80` and the two bytes
`0xC0 | b>>6`, `0x80 | b&0x3F` from `0x80` on. -/
def byteToString (b : Byte) : GoString :=
  if b.val < 128 then [b]
  else [⟨192 + b.val / 64, by omega⟩, ⟨128 + b.val % 64, by omega⟩]

/-- The bytes of a Go string literal of ASCII text: one byte per character, its
code point. -/
def bytesOf (text : String) : GoString :=
  text.toList.map (fun c => Fin.ofNat c.toNat)

/-- The alphabet `0-9 A-Z a-z` of the specification, as bytes. -/
def digitsUpperLower : List Byte :=
  (List.range 10).map (fun i => Fin.ofNat (48 + i)) ++
  (List.range 26).map (fun i => Fin.ofNat (65 + i)) ++
  (List.range 26).map (fun i => Fin.ofNat (97 + i))

/-! ## `pkg/base62` -/

namespace base62

/-- The loop `for n > 0 { remainder := n % len; res = append(res, chars[remainder]); n /= len }`
of `ToBase62`, run for at most `fuel` iterations.  `none` is a run that does
not return a slice: integer division by zero when the alphabet is empty, an
index out of range, or the fuel used up with `n` still positive. -/
def toBase62Loop (Base62Chars : List Byte) : Nat → Int → List Byte → Option (List Byte)
  | 0, n, res => if 0 < n then none else some res
  | fuel + 1, n, res =>
    if 0 < n then
      if (Base62Chars.length : Int) = 0 then none
      else
        let remainder := Int.tmod n (Base62Chars.length : Int)
        match Base62Chars[remainder.toNat]? with
        | none => none
        | some c =>
          toBase62Loop Base62Chars fuel (Int.tdiv n (Base62Chars.length : Int)) (res ++ [c])
    else some res

/-- The exchange `res[i], res[j] = res[j], res[i]`. -/
def swapBytes (res : List Byte) (i j : Nat) : List Byte :=
  match res[i]?, res[j]? with
  | some a, some b => (res.set i b).set j a
  | _, _ => res

/-- The loop `for i, j := 0, len(res)-1; i < j; i, j = i+1, j-1 { swap }` of
`ToBase62`, from the indices `i`, `j` on, for at most `fuel` iterations.  The
index `j` is a natural number here: it is decremented only after the guard
`i < j` held, and for an empty slice it starts at `0` where Go has `-1`, the
guard failing in both. -/
def reverseLoop : Nat → List Byte → Nat → Nat → List Byte
  | 0, res, _, _ => res
  | fuel + 1, res, i, j =>
    if i < j then reverseLoop fuel (swapBytes res i j) (i + 1) (j - 1) else res

/-- The whole in-place reversal of `ToBase62`: `i` starts at `0`, `j` at
`len(res)-1`; `len(res)` iterations are more than the loop ever makes. -/
def reverseBytes (res : List Byte) : List Byte :=
  reverseLoop res.length res 0 (res.length - 1)

/-- `ToBase62(n)`: `string(Base62Chars[0])` for `n == 0`, else the division
loop on an empty slice, the reversal in place and `string(res)`.  The division
loop makes at most `n` iterations when the alphabet has two symbols or more
(each one at least halves `n`), so `n` is its fuel; with a one-symbol alphabet
the loop of the code does not end.  For `n < 0` the loop body never runs. -/
def ToBase62 (Base62Chars : List Byte) (n : Int) : Option GoString :=
  if n = 0 then
    (Base62Chars[0]?).map byteToString
  else
    (toBase62Loop Base62Chars n.toNat n []).map reverseBytes

/-- The symbol of the digit `d`: `Base62Chars[d]`, for `d` below the length. -/
def symbolOf (Base62Chars : List Byte) (d : Nat) : Byte := Base62Chars.getD d 0

/-- The number that a string `s_0 … s_{k-1}` writes in base 62, most
significant symbol first: the sum over `i` of `idx(s_i) · 62^(k-1-i)`, where
`idx` is the position of a symbol in the alphabet. -/
def positionalValue (Base62Chars : List Byte) (s : GoString) : Nat :=
  ((List.range s.length).map
    (fun i => Base62Chars.indexOf (s.getD i 0) * 62 ^ (s.length - 1 - i))).sum

/-- The digits of `k` in base `b`, least significant first, with zero written
as the one digit `0`. -/
def digitsOf (b k : Nat) : List Nat := if k = 0 then [0] else Nat.digits b k

end base62

/-- An alphabet of 62 pairwise distinct bytes whose first symbol is not ASCII:
`0x80`, `0xC2`, then the bytes `0 … 59`. -/
def highBitAlphabet : List Byte :=
  [128, 194] ++ (List.range 60).map (fun i => Fin.ofNat i)

/-! ## Go maps and errors -/

/-- A Go `map[string]string` as the list of its entries.  A map built from the
empty map by assignments has one entry per key. -/
abbrev GoMap := List (GoString × GoString)

namespace GoMap

/-- The value stored under `k`, if any. -/
def lookup : GoMap → GoString → Option GoString
  | [], _ => none
  | (k', v) :: t, k => if k' = k then some v else lookup t k

/-- The two-result index expression `v, ok := m[k]`: the zero value `""` and
`false` when `k` is not a key. -/
def index (m : GoMap) (k : GoString) : GoString × Bool :=
  match m.lookup k with
  | some v => (v, true)
  | none => ([], false)

/-- The assignment `m[k] = v`. -/
def assign (m : GoMap) (k v : GoString) : GoMap :=
  (k, v) :: m.filter (fun p => decide (p.1 ≠ k))

/-- The keys of the map. -/
def keys (m : GoMap) : List GoString := m.map Prod.fst

/-- The number of entries, `len(m)`. -/
def len (m : GoMap) : Nat := m.length

end GoMap

/-- A Go `error` value of this program: made by `errors.New(msg)`, or by
`fmt.Errorf(format, err)` with a format that is a text followed by `%w`. -/
inductive GoError where
  | new (msg : String)
  | wrap (text : String) (err : GoError)
  deriving DecidableEq, Repr

namespace GoError

/-- The method `Error()`: the message of the error. -/
def Error : GoError → String
  | new msg => msg
  | wrap text err => text ++ err.Error

/-- The error wrapped with `%w`, as `errors.Unwrap` returns it. -/
def Unwrap : GoError → Option GoError
  | new _ => none
  | wrap _ err => some err

end GoError

/-! ## `internal/storage` -/

namespace storage

/-- The struct `InMemoryStorage` without its lock. -/
structure InMemoryStorage where
  shortToLong : GoMap
  longToShort : GoMap
  deriving DecidableEq, Repr

/-- `NewInMemoryStorage()`: both maps empty. -/
def NewInMemoryStorage : InMemoryStorage :=
  { shortToLong := [], longToShort := [] }

namespace InMemoryStorage

/-- `(*InMemoryStorage).Save`: the returned error (`none` is `nil`) and the
store after the call. -/
def Save (s : InMemoryStorage) (shortCode longURL : GoString) :
    Option GoError × InMemoryStorage :=
  if (s.shortToLong.index shortCode).2 then
    (some (GoError.new "short code already exists"), s)
  else if (s.longToShort.index longURL).2 then
    (some (GoError.new "long URL already shortened"), s)
  else
    (none, { shortToLong := s.shortToLong.assign shortCode longURL,
             longToShort := s.longToShort.assign longURL shortCode })

/-- `(*InMemoryStorage).Get`. -/
def Get (s : InMemoryStorage) (shortCode : GoString) :
    (GoString × Bool) × InMemoryStorage :=
  (s.shortToLong.index shortCode, s)

/-- `(*InMemoryStorage).GetShortCode`. -/
def GetShortCode (s : InMemoryStorage) (longURL : GoString) :
    (GoString × Bool) × InMemoryStorage :=
  (s.longToShort.index longURL, s)

end InMemoryStorage

/-- The two projections agree: `shortToLong` holds `l` under `s` exactly when
`longToShort` holds `s` under `l`. -/
def Consistent (st : InMemoryStorage) : Prop :=
  ∀ s l : GoString, st.shortToLong.lookup s = some l ↔ st.longToShort.lookup l = some s

/-- The stores that `NewInMemoryStorage()` reaches by a finite sequence of
`Save` calls, whatever they return. -/
inductive Reachable : InMemoryStorage → Prop
  | fresh : Reachable NewInMemoryStorage
  | save (st : InMemoryStorage) (shortCode longURL : GoString) :
      Reachable st → Reachable (st.Save shortCode longURL).2

/-- The interface `Storage`, over a type `σ` of states of the implementation:
each method takes the state and returns its Go results and the state after the
call. -/
structure Storage (σ : Type) where
  Save : σ → GoString → GoString → Option GoError × σ
  Get : σ → GoString → (GoString × Bool) × σ
  GetShortCode : σ → GoString → (GoString × Bool) × σ

/-- `*InMemoryStorage` as an implementation of `Storage`. -/
def inMemory : Storage InMemoryStorage :=
  { Save := InMemoryStorage.Save
    Get := InMemoryStorage.Get
    GetShortCode := InMemoryStorage.GetShortCode }

/-- An `InMemoryStorage` together with the number of `Save` calls made on it. -/
structure CountingStorage where
  inner : InMemoryStorage
  saveCalls : Nat
  deriving DecidableEq, Repr

/-- The implementation of `Storage` that hands every call to the
`InMemoryStorage` inside and counts the `Save` calls. -/
def counting : Storage CountingStorage :=
  { Save := fun s shortCode longURL =>
      ((s.inner.Save shortCode longURL).1,
        { inner := (s.inner.Save shortCode longURL).2, saveCalls := s.saveCalls + 1 })
    Get := fun s shortCode =>
      ((s.inner.Get shortCode).1, { s with inner := (s.inner.Get shortCode).2 })
    GetShortCode := fun s longURL =>
      ((s.inner.GetShortCode longURL).1,
        { s with inner := (s.inner.GetShortCode longURL).2 }) }

end storage

/-! ## `internal/service` -/

namespace service

open storage

/-- The struct `Service` without its lock, over an `InMemoryStorage`. -/
structure Service where
  storage : InMemoryStorage
  counter : Int
  deriving DecidableEq, Repr

/-- `NewService(s)`: the counter has its zero value. -/
def NewService (s : InMemoryStorage) : Service :=
  { storage := s, counter := 0 }

namespace Service

/-- `(*Service).GenerateShortCode`: `s.counter++` on an `int64`, then
`base62.ToBase62(s.counter)`. -/
def GenerateShortCode (Base62Chars : List Byte) (s : Service) :
    Option (GoString × Service) :=
  let s1 : Service := { s with counter := wrapInt64 (s.counter + 1) }
  (base62.ToBase62 Base62Chars s1.counter).map (fun code => (code, s1))

/-- `(*Service).ShortenURL`: the results `(string, error)` and the service
after the call. -/
def ShortenURL (Base62Chars : List Byte) (s : Service) (longURL : GoString) :
    Option ((GoString × Option GoError) × Service) :=
  let r := s.storage.GetShortCode longURL
  if r.1.2 then
    some ((r.1.1, none), { s with storage := r.2 })
  else
    match GenerateShortCode Base62Chars { s with storage := r.2 } with
    | none => none
    | some (shortCode, s2) =>
      let w := s2.storage.Save shortCode longURL
      match w.1 with
      | some err =>
        some (([], some (GoError.wrap "failed to save URL mapping: " err)),
          { s2 with storage := w.2 })
      | none => some ((shortCode, none), { s2 with storage := w.2 })

/-- `(*Service).GetLongURL`. -/
def GetLongURL (s : Service) (shortCode : GoString) :
    (GoString × Option GoError) × Service :=
  let r := s.storage.Get shortCode
  if r.1.2 then ((r.1.1, none), { s with storage := r.2 })
  else (([], some (GoError.new "short code not found")), { s with storage := r.2 })

end Service

/-- A call of the service from the request layer. -/
inductive Call where
  | shorten (longURL : GoString)
  | resolve (shortCode : GoString)
  deriving DecidableEq, Repr

/-- A finished call together with the `(string, error)` it returned. -/
structure Event where
  call : Call
  result : GoString × Option GoError
  deriving DecidableEq, Repr

/-- `Run Base62Chars tr s`: a service made by `NewService(NewInMemoryStorage())`
is in state `s` after the calls of `tr`, made one after the other (oldest
first), in none of which the `int64` counter wrapped around: a `ShortenURL`
call leaves the counter alone or adds one to it. -/
inductive Run (Base62Chars : List Byte) : List Event → Service → Prop
  | fresh : Run Base62Chars [] (NewService NewInMemoryStorage)
  | shorten (tr : List Event) (s : Service) (u : GoString)
      (r : GoString × Option GoError) (s' : Service) :
      Run Base62Chars tr s →
      s.ShortenURL Base62Chars u = some (r, s') →
      (s'.counter = s.counter ∨ s'.counter = s.counter + 1) →
      Run Base62Chars (tr ++ [⟨Call.shorten u, r⟩]) s'
  | resolve (tr : List Event) (s : Service) (c : GoString) :
      Run Base62Chars tr s →
      Run Base62Chars (tr ++ [⟨Call.resolve c, (s.GetLongURL c).1⟩]) (s.GetLongURL c).2

/-- The states a fresh service reaches by a finite sequence of sequential
calls without overflow of the counter. -/
def Reachable (Base62Chars : List Byte) (s : Service) : Prop :=
  ∃ tr, Run Base62Chars tr s

/-- What holds of every reachable state: the counter is a non-negative
`int64`, the two maps agree, the stored short codes are the codes of
`1 … counter`, each map has one entry per key, and both have `counter`
entries. -/
structure Inv (Base62Chars : List Byte) (s : Service) : Prop where
  counter_nonneg : 0 ≤ s.counter
  counter_le : s.counter ≤ maxInt64
  consistent : Consistent s.storage
  codes : ∀ c, c ∈ s.storage.shortToLong.keys ↔
    ∃ i : Nat, 1 ≤ i ∧ (i : Int) ≤ s.counter ∧ base62.ToBase62 Base62Chars (i : Int) = some c
  short_nodup : s.storage.shortToLong.keys.Nodup
  long_nodup : s.storage.longToShort.keys.Nodup
  short_len : (s.storage.shortToLong.len : Int) = s.counter
  long_len : s.storage.longToShort.len = s.storage.shortToLong.len

/-- What a run's trace says about its last state: every `ShortenURL` call of
the trace returned no error, and the code it returned is the one the reverse
map holds for its URL. -/
def TraceInv (tr : List Event) (s : Service) : Prop :=
  ∀ e ∈ tr, ∀ u, e.call = Call.shorten u →
    e.result.2 = none ∧ s.storage.longToShort.lookup u = some e.result.1

/-- The struct `Service` without its lock, over any implementation of the
interface `Storage` (the field `storage` of the Go struct has the interface
type). -/
structure ServiceOver (σ : Type) where
  storage : σ
  counter : Int

/-- `(*Service).ShortenURL` with `GenerateShortCode` in its place, over any
implementation `impl` of `Storage`. -/
def ShortenURLOver {σ : Type} (impl : Storage σ) (Base62Chars : List Byte)
    (s : ServiceOver σ) (longURL : GoString) :
    Option ((GoString × Option GoError) × ServiceOver σ) :=
  let r := impl.GetShortCode s.storage longURL
  if r.1.2 then
    some ((r.1.1, none), { s with storage := r.2 })
  else
    let counter := wrapInt64 (s.counter + 1)
    match base62.ToBase62 Base62Chars counter with
    | none => none
    | some shortCode =>
      let w := impl.Save r.2 shortCode longURL
      match w.1 with
      | some err =>
        some (([], some (GoError.wrap "failed to save URL mapping: " err)),
          { storage := w.2, counter := counter })
      | none => some ((shortCode, none), { storage := w.2, counter := counter })

/-- The service after `k` calls of `GenerateShortCode`, one after the other. -/
def generateTimes (Base62Chars : List Byte) : Nat → Service → Option Service
  | 0, s => some s
  | k + 1, s =>
    match s.GenerateShortCode Base62Chars with
    | none => none
    | some (_, s') => generateTimes Base62Chars k s'

/-! ### Simultaneous callers

`ShortenURL` touches the shared service in three places, each under a lock from
its first to its last statement: `GetShortCode` (read lock of the store),
`GenerateShortCode` (the counter's mutex) and `Save` (write lock of the store).
A caller of `ShortenURL` is therefore at one of four points, and simultaneous
callers interleave at these three steps. -/

/-- Where a caller of `ShortenURL(longURL)` stands: before `GetShortCode`,
after `GetShortCode` reported the URL absent, after `GenerateShortCode`
returned `shortCode`, or returned with its `(string, error)`. -/
inductive Caller where
  | ready (longURL : GoString)
  | checked (longURL : GoString)
  | generated (longURL shortCode : GoString)
  | done (longURL : GoString) (result : GoString × Option GoError)
  deriving DecidableEq, Repr

namespace Caller

/-- The URL the caller is shortening. -/
def longURL : Caller → GoString
  | ready u => u
  | checked u => u
  | generated u _ => u
  | done u _ => u

/-- Whether the caller's `ShortenURL` has returned. -/
def isDone : Caller → Bool
  | done _ _ => true
  | _ => false

/-- The number of locked steps the caller has behind it on the path through
`GenerateShortCode` and `Save`. -/
def phase : Caller → Nat
  | ready _ => 0
  | checked _ => 1
  | generated _ _ => 2
  | done _ _ => 3

/-- Whether the caller has `GenerateShortCode` behind it. -/
def hasGenerated : Caller → Bool
  | ready _ => false
  | checked _ => false
  | generated _ _ => true
  | done _ _ => true

/-- The short code the caller holds: the generated one, or the returned one. -/
def codeOf : Caller → Option GoString
  | ready _ => none
  | checked _ => none
  | generated _ c => some c
  | done _ r => some r.1

/-- The next locked step of the caller's `ShortenURL` on the service `s`: the
service and the caller after it.  A caller that has returned has no step. -/
def advance (Base62Chars : List Byte) (s : Service) : Caller → Option (Service × Caller)
  | ready u =>
    let r := s.storage.GetShortCode u
    if r.1.2 then some ({ s with storage := r.2 }, done u (r.1.1, none))
    else some ({ s with storage := r.2 }, checked u)
  | checked u =>
    match s.GenerateShortCode Base62Chars with
    | none => none
    | some (shortCode, s') => some (s', generated u shortCode)
  | generated u shortCode =>
    let w := s.storage.Save shortCode u
    match w.1 with
    | some err =>
      some ({ s with storage := w.2 },
        done u ([], some (GoError.wrap "failed to save URL mapping: " err)))
    | none => some ({ s with storage := w.2 }, done u (shortCode, none))
  | done _ _ => none

/-- The steps of one caller made one after the other with no other caller in
between, at most `fuel` of them. -/
def runAlone (Base62Chars : List Byte) : Nat → Service → Caller → Option (Service × Caller)
  | 0, s, c => some (s, c)
  | fuel + 1, s, c =>
    if c.isDone then some (s, c)
    else
      match c.advance Base62Chars s with
      | none => none
      | some (s', c') => runAlone Base62Chars fuel s' c'

end Caller

/-- One step of the simultaneous callers `cs` on the shared service: some
caller of the list makes its next locked step. -/
inductive Step (Base62Chars : List Byte) :
    Service × List Caller → Service × List Caller → Prop
  | mk (s s' : Service) (pre post : List Caller) (c c' : Caller) :
      c.advance Base62Chars s = some (s', c') →
      Step Base62Chars (s, pre ++ c :: post) (s', pre ++ c' :: post)

/-- `Interleaving Base62Chars n a b`: the callers and the service of `a` reach
`b` by `n` steps, in any order of the callers. -/
inductive Interleaving (Base62Chars : List Byte) :
    Nat → Service × List Caller → Service × List Caller → Prop
  | start (a : Service × List Caller) : Interleaving Base62Chars 0 a a
  | next (n : Nat) (a b c : Service × List Caller) :
      Interleaving Base62Chars n a b → Step Base62Chars b c →
      Interleaving Base62Chars (n + 1) a c

/-- What holds after `n` steps of callers that shorten the pairwise distinct
URLs `urls` on a fresh service. -/
structure ConcInv (Base62Chars : List Byte) (urls : List GoString) (n : Nat)
    (s : Service) (cs : List Caller) : Prop where
  urls_eq : cs.map Caller.longURL = urls
  phases : (cs.map Caller.phase).sum = n
  counter_eq : s.counter = ((cs.countP Caller.hasGenerated : Nat) : Int)
  codes : ∀ code ∈ cs.filterMap Caller.codeOf,
    ∃ i : Nat, 1 ≤ i ∧ (i : Int) ≤ s.counter ∧
      base62.ToBase62 Base62Chars (i : Int) = some code
  codes_nodup : (cs.filterMap Caller.codeOf).Nodup
  done_ok : ∀ u r, Caller.done u r ∈ cs → r.2 = none
  stored : ∀ code u, s.storage.shortToLong.lookup code = some u ↔
    Caller.done u (code, none) ∈ cs
  consistent : Consistent s.storage
  short_nodup : s.storage.shortToLong.keys.Nodup
  long_nodup : s.storage.longToShort.keys.Nodup
  short_len : s.storage.shortToLong.len = cs.countP Caller.isDone
  long_len : s.storage.longToShort.len = s.storage.shortToLong.len

end service

/-! ## The in-place reversal is list reversal -/

namespace base62

theorem swapBytes_length (res : List Byte) (i j : Nat) :
    (swapBytes res i j).length = res.length := by
  unfold swapBytes
  split <;> simp

theorem swapBytes_getElem? (res : List Byte) (i j : Nat) (hi : i < res.length)
    (hj : j < res.length) (k : Nat) :
    (swapBytes res i j)[k]? =
      if k = j then res[i]? else if k = i then res[j]? else res[k]? := by
  unfold swapBytes
  rw [List.getElem?_eq_getElem hi, List.getElem?_eq_getElem hj]
  simp only [List.getElem?_set, List.length_set]
  by_cases h1 : k = j
  · subst h1
    simp [hj]
  · by_cases h2 : k = i
    · subst h2
      simp [hi, h1, Ne.symm h1]
    · simp [h1, h2, Ne.symm h1, Ne.symm h2]

theorem reverseLoop_length (fuel : Nat) (res : List Byte) (i j : Nat) :
    (reverseLoop fuel res i j).length = res.length := by
  induction fuel generalizing res i j with
  | zero => rfl
  | succ fuel ih =>
    unfold reverseLoop
    split
    · rw [ih, swapBytes_length]
    · rfl

theorem reverseLoop_getElem? (fuel : Nat) (res : List Byte) (i j : Nat)
    (hj : j < res.length) (hf : j < i + 2 * fuel) (k : Nat) :
    (reverseLoop fuel res i j)[k]? =
      if i ≤ k ∧ k ≤ j then res[i + j - k]? else res[k]? := by
  induction fuel generalizing res i j with
  | zero =>
    have : ¬ (i ≤ k ∧ k ≤ j) := by omega
    simp [reverseLoop, this]
  | succ fuel ih =>
    unfold reverseLoop
    by_cases hij : i < j
    · rw [if_pos hij, ih (swapBytes res i j) (i + 1) (j - 1)
        (by rw [swapBytes_length]; omega) (by omega)]
      have hi : i < res.length := by omega
      by_cases hk : i + 1 ≤ k ∧ k ≤ j - 1
      · have hk2 : i ≤ k ∧ k ≤ j := by omega
        rw [if_pos hk, if_pos hk2, swapBytes_getElem? res i j hi hj]
        have e : i + 1 + (j - 1) - k = i + j - k := by omega
        rw [e, if_neg (by omega), if_neg (by omega)]
      · rw [if_neg hk, swapBytes_getElem? res i j hi hj]
        by_cases h1 : k = j
        · subst h1
          have e : i + k - k = i := by omega
          rw [if_pos rfl, if_pos (by omega), e]
        · by_cases h2 : k = i
          · subst h2
            have e : k + j - k = j := by omega
            rw [if_neg h1, if_pos rfl, if_pos (by omega), e]
          · rw [if_neg h1, if_neg h2, if_neg (by omega)]
    · rw [if_neg hij]
      by_cases hk : i ≤ k ∧ k ≤ j
      · have e : i + j - k = k := by omega
        rw [if_pos hk, e]
      · rw [if_neg hk]

/-- The two-index exchange loop of `ToBase62` returns the reversed slice. -/
theorem reverseBytes_eq (res : List Byte) : reverseBytes res = res.reverse := by
  unfold reverseBytes
  by_cases h0 : res.length = 0
  · have : res = [] := List.length_eq_zero.mp h0
    subst this
    rfl
  · apply List.ext_getElem?
    intro k
    rw [reverseLoop_getElem? res.length res 0 (res.length - 1) (by omega) (by omega)]
    by_cases hk : k < res.length
    · rw [if_pos (by omega), List.getElem?_reverse hk]
      congr 1
      omega
    · rw [if_neg (by omega), List.getElem?_eq_none (by omega),
        List.getElem?_eq_none (by simp; omega)]

end base62

/-! ## `ToBase62` and the base-`len` digits of its argument -/

namespace base62

theorem getElem?_eq_symbolOf (A : List Byte) (d : Nat) (hd : d < A.length) :
    A[d]? = some (symbolOf A d) := by
  simp [symbolOf, List.getD, List.getElem?_eq_getElem hd]

/-- With two symbols or more the division loop returns, and what it appends
to `res` are the symbols of the digits of `m`, least significant first. -/
theorem toBase62Loop_eq (A : List Byte) (hA : 1 < A.length) (fuel m : Nat)
    (hf : m ≤ fuel) (res : List Byte) :
    toBase62Loop A fuel (m : Int) res =
      some (res ++ (Nat.digits A.length m).map (symbolOf A)) := by
  induction fuel generalizing m res with
  | zero =>
    have : m = 0 := by omega
    subst this
    simp [toBase62Loop]
  | succ fuel ih =>
    rcases Nat.eq_zero_or_pos m with h0 | hpos
    · subst h0
      simp [toBase62Loop]
    · have hlen : ¬ ((A.length : Int) = 0) := by omega
      have hposI : (0 : Int) < (m : Int) := by exact_mod_cast hpos
      have hmod : Int.tmod (m : Int) (A.length : Int) = ((m % A.length : Nat) : Int) := by
        rw [Int.tmod_eq_emod (by omega) (by omega)]
        norm_cast
      have hdiv : Int.tdiv (m : Int) (A.length : Int) = ((m / A.length : Nat) : Int) := by
        rw [Int.tdiv_eq_ediv (by omega) (by omega)]
        norm_cast
      have hlt : m % A.length < A.length := Nat.mod_lt _ (by omega)
      have hdl : m / A.length ≤ fuel := by
        have := Nat.div_lt_self hpos hA
        omega
      unfold toBase62Loop
      rw [if_pos hposI, if_neg hlen]
      simp only [hmod, hdiv, Int.toNat_ofNat, getElem?_eq_symbolOf A _ hlt]
      rw [ih _ hdl, Nat.digits_def' hA hpos]
      simp

theorem ToBase62_zero (A : List Byte) : ToBase62 A 0 = (A[0]?).map byteToString := by
  simp [ToBase62]

/-- For `n > 0`, `ToBase62(n)` is the symbols of the digits of `n`, most
significant first. -/
theorem ToBase62_pos (A : List Byte) (hA : 1 < A.length) (m : Nat) (hm : 0 < m) :
    ToBase62 A (m : Int) = some (((Nat.digits A.length m).map (symbolOf A)).reverse) := by
  have h0 : ¬ ((m : Int) = 0) := by omega
  unfold ToBase62
  rw [if_neg h0, Int.toNat_ofNat, toBase62Loop_eq A hA m m (le_refl m) []]
  simp [reverseBytes_eq]

/-- For `n < 0` the loop guard `n > 0` fails at once and the result is `""`. -/
theorem ToBase62_neg (A : List Byte) (n : Int) (hn : n < 0) : ToBase62 A n = some [] := by
  have h0 : ¬ (n = 0) := by omega
  have h1 : ¬ (0 < n) := by omega
  have h2 : n.toNat = 0 := by omega
  unfold ToBase62
  rw [if_neg h0, h2]
  simp [toBase62Loop, h1, reverseBytes, reverseLoop]

/-- Distinct symbols: the symbol of a digit determines the digit. -/
theorem symbolOf_inj (A : List Byte) (hnd : A.Nodup) (d e : Nat) (hd : d < A.length)
    (he : e < A.length) (h : symbolOf A d = symbolOf A e) : d = e := by
  have h1 := getElem?_eq_symbolOf A d hd
  have h2 := getElem?_eq_symbolOf A e he
  rw [List.getElem?_eq_getElem hd] at h1
  rw [List.getElem?_eq_getElem he] at h2
  have : A[d] = A[e] := by
    have := Option.some.inj h1
    have := Option.some.inj h2
    simp_all
  exact (List.Nodup.getElem_inj_iff hnd).mp this

theorem map_symbolOf_inj (A : List Byte) (hnd : A.Nodup) (l₁ l₂ : List Nat)
    (h₁ : ∀ d ∈ l₁, d < A.length) (h₂ : ∀ d ∈ l₂, d < A.length)
    (h : l₁.map (symbolOf A) = l₂.map (symbolOf A)) : l₁ = l₂ := by
  induction l₁ generalizing l₂ with
  | nil =>
    cases l₂ with
    | nil => rfl
    | cons b t => simp at h
  | cons a t ih =>
    cases l₂ with
    | nil => simp at h
    | cons b t₂ =>
      simp only [List.map_cons, List.cons.injEq] at h
      have hab := symbolOf_inj A hnd a b (h₁ a (by simp)) (h₂ b (by simp)) h.1
      have := ih t₂ (fun d hd => h₁ d (by simp [hd])) (fun d hd => h₂ d (by simp [hd])) h.2
      rw [hab, this]

/-- On positive arguments `ToBase62` is injective, for distinct symbols. -/
theorem ToBase62_pos_inj (A : List Byte) (hA : 1 < A.length) (hnd : A.Nodup) (m n : Nat)
    (hm : 0 < m) (hn : 0 < n) (h : ToBase62 A (m : Int) = ToBase62 A (n : Int)) : m = n := by
  rw [ToBase62_pos A hA m hm, ToBase62_pos A hA n hn] at h
  have h' := List.reverse_injective (Option.some.inj h)
  have := map_symbolOf_inj A hnd _ _ (fun d hd => Nat.digits_lt_base hA hd)
    (fun d hd => Nat.digits_lt_base hA hd) h'
  exact Nat.digits_inj_iff.mp this

/-- A code of a positive argument is not empty. -/
theorem ToBase62_pos_ne_nil (A : List Byte) (hA : 1 < A.length) (m : Nat) (hm : 0 < m) :
    ToBase62 A (m : Int) ≠ some [] := by
  rw [ToBase62_pos A hA m hm]
  intro h
  have h1 := Option.some.inj h
  simp only [List.reverse_eq_nil_iff, List.map_eq_nil_iff] at h1
  exact (Nat.pos_iff_ne_zero.mp hm) (Nat.digits_eq_nil_iff_eq_zero.mp h1)

end base62

/-! ## `ToBase62` on non-negative arguments -/

namespace base62

theorem digitsOf_lt (b k : Nat) (hb : 1 < b) : ∀ d ∈ digitsOf b k, d < b := by
  intro d hd
  unfold digitsOf at hd
  split at hd
  · rw [List.mem_singleton.mp hd]
    omega
  · exact Nat.digits_lt_base hb hd

theorem ofDigits_digitsOf (b k : Nat) : Nat.ofDigits b (digitsOf b k) = k := by
  unfold digitsOf
  split
  · next h => simp [h]
  · exact Nat.ofDigits_digits b k

theorem digitsOf_ne_nil (b k : Nat) : digitsOf b k ≠ [] := by
  unfold digitsOf
  split
  · simp
  · next h => exact fun e => h (Nat.digits_eq_nil_iff_eq_zero.mp e)

/-- When the first symbol is an ASCII byte, `ToBase62` of every non-negative
number is the symbols of its digits, most significant first. -/
theorem ToBase62_eq_digitsOf (A : List Byte) (hA : 1 < A.length) (a0 : Byte)
    (h0 : A[0]? = some a0) (k : Nat) (hascii : k = 0 → a0.val < 128) :
    ToBase62 A (k : Int) = some (((digitsOf A.length k).map (symbolOf A)).reverse) := by
  rcases Nat.eq_zero_or_pos k with hk | hk
  · subst hk
    have hs : symbolOf A 0 = a0 := by
      have := getElem?_eq_symbolOf A 0 (by omega)
      rw [h0] at this
      exact (Option.some.inj this).symm
    simp [ToBase62, h0, byteToString, hascii rfl, digitsOf, hs]
  · rw [ToBase62_pos A hA k hk]
    simp [digitsOf, Nat.pos_iff_ne_zero.mp hk]

theorem indexOf_symbolOf (A : List Byte) (hnd : A.Nodup) (d : Nat) (hd : d < A.length) :
    A.indexOf (symbolOf A d) = d := by
  have : symbolOf A d = A[d] := by
    unfold symbolOf
    exact List.getD_eq_getElem A 0 hd
  rw [this]
  exact List.indexOf_getElem hnd d hd

theorem positionalValue_append (A : List Byte) (s : GoString) (c : Byte) :
    positionalValue A (s ++ [c]) = positionalValue A s * 62 + A.indexOf c := by
  unfold positionalValue
  rw [List.length_append, List.length_singleton, List.range_succ, List.map_append,
    List.sum_append, ← List.sum_map_mul_right]
  congr 1
  · congr 1
    apply List.map_congr_left
    intro i hi
    have hi' : i < s.length := List.mem_range.mp hi
    have e : s.length + 1 - 1 - i = (s.length - 1 - i) + 1 := by omega
    rw [List.getD_append s [c] 0 i hi', e, pow_succ, mul_assoc]
  · have e : s.length + 1 - 1 - s.length = 0 := by omega
    simp [List.getD_append_right, e]

/-- The value of the symbols of a digit list, written most significant first,
is the number the digits stand for. -/
theorem positionalValue_digits (A : List Byte) (hnd : A.Nodup)
    (L : List Nat) (hL : ∀ d ∈ L, d < A.length) :
    positionalValue A ((L.map (symbolOf A)).reverse) = Nat.ofDigits 62 L := by
  induction L with
  | nil => simp [positionalValue]
  | cons d t ih =>
    rw [List.map_cons, List.reverse_cons, positionalValue_append,
      ih (fun e he => hL e (by simp [he])), indexOf_symbolOf A hnd d (hL d (by simp)),
      Nat.ofDigits_cons]
    ring

theorem symbolOf_mem (A : List Byte) (d : Nat) (hd : d < A.length) : symbolOf A d ∈ A := by
  have : symbolOf A d = A[d] := by
    unfold symbolOf
    exact List.getD_eq_getElem A 0 hd
  rw [this]
  exact List.getElem_mem hd

end base62

/-! ## Go maps: lookup after assignment, keys, length -/

namespace GoMap

theorem index_snd (m : GoMap) (k : GoString) : (m.index k).2 = (m.lookup k).isSome := by
  unfold index
  cases m.lookup k <;> rfl

theorem index_of_lookup_some (m : GoMap) (k v : GoString) (h : m.lookup k = some v) :
    m.index k = (v, true) := by
  simp [index, h]

theorem index_of_lookup_none (m : GoMap) (k : GoString) (h : m.lookup k = none) :
    m.index k = ([], false) := by
  simp [index, h]

theorem lookup_filter_ne (m : GoMap) (k k' : GoString) (h : k' ≠ k) :
    GoMap.lookup (m.filter (fun p => decide (p.1 ≠ k))) k' = m.lookup k' := by
  induction m with
  | nil => rfl
  | cons p t ih =>
    obtain ⟨a, b⟩ := p
    by_cases hak : a = k
    · have hak' : ¬ a = k' := fun e => h (e ▸ hak)
      rw [List.filter_cons_of_neg (by simp [hak])]
      simp only [lookup, if_neg hak']
      exact ih
    · rw [List.filter_cons_of_pos (by simp [hak])]
      by_cases hak' : a = k'
      · simp only [lookup, if_pos hak']
      · simp only [lookup, if_neg hak']
        exact ih

theorem lookup_assign_self (m : GoMap) (k v : GoString) : (m.assign k v).lookup k = some v := by
  simp [assign, lookup]

theorem lookup_assign_ne (m : GoMap) (k v k' : GoString) (h : k' ≠ k) :
    (m.assign k v).lookup k' = m.lookup k' := by
  simp only [assign, lookup, if_neg (Ne.symm h)]
  exact lookup_filter_ne m k k' h

theorem lookup_isSome_iff (m : GoMap) (k : GoString) :
    (m.lookup k).isSome = true ↔ k ∈ m.keys := by
  induction m with
  | nil => simp [lookup, keys]
  | cons p t ih =>
    obtain ⟨a, b⟩ := p
    by_cases hak : a = k
    · simp [lookup, keys, hak]
    · have hk : ¬ k = a := fun e => hak e.symm
      simp only [lookup, if_neg hak, ih, keys, List.map_cons, List.mem_cons, hk, false_or]

theorem lookup_eq_none_iff (m : GoMap) (k : GoString) : m.lookup k = none ↔ k ∉ m.keys := by
  rw [← lookup_isSome_iff]
  cases m.lookup k <;> simp

theorem index_snd_iff (m : GoMap) (k : GoString) : (m.index k).2 = true ↔ k ∈ m.keys := by
  rw [index_snd, lookup_isSome_iff]

theorem filter_of_not_mem (m : GoMap) (k : GoString) (h : k ∉ m.keys) :
    m.filter (fun p => decide (p.1 ≠ k)) = m := by
  apply List.filter_eq_self.mpr
  intro p hp
  have : p.1 ≠ k := by
    intro e
    apply h
    rw [← e]
    exact List.mem_map_of_mem Prod.fst hp
  simpa using this

theorem assign_of_not_mem (m : GoMap) (k v : GoString) (h : k ∉ m.keys) :
    m.assign k v = (k, v) :: m := by
  unfold assign
  rw [filter_of_not_mem m k h]

end GoMap

/-! ## The mapping store -/

namespace storage

open InMemoryStorage

theorem Save_of_short_dup (st : InMemoryStorage) (c u : GoString)
    (h : c ∈ st.shortToLong.keys) :
    st.Save c u = (some (GoError.new "short code already exists"), st) := by
  unfold Save
  rw [if_pos ((GoMap.index_snd_iff _ _).mpr h)]

theorem Save_of_long_dup (st : InMemoryStorage) (c u : GoString)
    (hc : c ∉ st.shortToLong.keys) (hu : u ∈ st.longToShort.keys) :
    st.Save c u = (some (GoError.new "long URL already shortened"), st) := by
  unfold Save
  rw [if_neg (fun h => hc ((GoMap.index_snd_iff _ _).mp h)),
    if_pos ((GoMap.index_snd_iff _ _).mpr hu)]

theorem Save_of_absent (st : InMemoryStorage) (c u : GoString)
    (hc : c ∉ st.shortToLong.keys) (hu : u ∉ st.longToShort.keys) :
    st.Save c u = (none, { shortToLong := (c, u) :: st.shortToLong,
                           longToShort := (u, c) :: st.longToShort }) := by
  unfold Save
  rw [if_neg (fun h => hc ((GoMap.index_snd_iff _ _).mp h)),
    if_neg (fun h => hu ((GoMap.index_snd_iff _ _).mp h)),
    GoMap.assign_of_not_mem _ _ _ hc, GoMap.assign_of_not_mem _ _ _ hu]

/-- The three runs of `Save`. -/
theorem Save_cases (st : InMemoryStorage) (c u : GoString) :
    (c ∈ st.shortToLong.keys ∧
      st.Save c u = (some (GoError.new "short code already exists"), st)) ∨
    (c ∉ st.shortToLong.keys ∧ u ∈ st.longToShort.keys ∧
      st.Save c u = (some (GoError.new "long URL already shortened"), st)) ∨
    (c ∉ st.shortToLong.keys ∧ u ∉ st.longToShort.keys ∧
      st.Save c u = (none, { shortToLong := (c, u) :: st.shortToLong,
                             longToShort := (u, c) :: st.longToShort })) := by
  by_cases hc : c ∈ st.shortToLong.keys
  · exact Or.inl ⟨hc, Save_of_short_dup st c u hc⟩
  · by_cases hu : u ∈ st.longToShort.keys
    · exact Or.inr (Or.inl ⟨hc, hu, Save_of_long_dup st c u hc hu⟩)
    · exact Or.inr (Or.inr ⟨hc, hu, Save_of_absent st c u hc hu⟩)

theorem consistent_fresh : Consistent NewInMemoryStorage := by
  intro s l
  simp [NewInMemoryStorage, GoMap.lookup]

theorem consistent_cons (st : InMemoryStorage) (c u : GoString) (h : Consistent st)
    (hc : c ∉ st.shortToLong.keys) (hu : u ∉ st.longToShort.keys) :
    Consistent { shortToLong := (c, u) :: st.shortToLong,
                 longToShort := (u, c) :: st.longToShort } := by
  intro s l
  have hcn := (GoMap.lookup_eq_none_iff _ _).mpr hc
  have hun := (GoMap.lookup_eq_none_iff _ _).mpr hu
  simp only [GoMap.lookup]
  by_cases h1 : c = s
  · by_cases h2 : u = l
    · simp [h1, h2]
    · rw [if_pos h1, if_neg h2]
      constructor
      · intro e
        exact absurd (Option.some.inj e) h2
      · intro e
        rw [← h1, ← h c l, hcn] at e
        exact absurd e (by simp)
  · by_cases h2 : u = l
    · rw [if_neg h1, if_pos h2]
      constructor
      · intro e
        rw [← h2, h s u, hun] at e
        exact absurd e (by simp)
      · intro e
        exact absurd (Option.some.inj e) h1
    · rw [if_neg h1, if_neg h2]
      exact h s l

theorem consistent_Save (st : InMemoryStorage) (c u : GoString) (h : Consistent st) :
    Consistent (st.Save c u).2 := by
  rcases Save_cases st c u with ⟨_, e⟩ | ⟨_, _, e⟩ | ⟨hc, hu, e⟩
  · rw [e]; exact h
  · rw [e]; exact h
  · rw [e]; exact consistent_cons st c u h hc hu

end storage

/-! ## The shortening service: one call -/

namespace service

open storage

theorem wrapInt64_succ (c : Int) (h0 : 0 ≤ c) (h1 : c < maxInt64) :
    wrapInt64 (c + 1) = c + 1 := by
  unfold wrapInt64
  unfold maxInt64 at h1
  omega

theorem wrapInt64_max : wrapInt64 (maxInt64 + 1) = minInt64 := by
  decide

theorem ToBase62_total (A : List Byte) (hA : 1 < A.length) (n : Int) :
    ∃ c, base62.ToBase62 A n = some c := by
  rcases lt_trichotomy n 0 with h | h | h
  · exact ⟨[], base62.ToBase62_neg A n h⟩
  · subst h
    rw [base62.ToBase62_zero, List.getElem?_eq_getElem (by omega)]
    exact ⟨_, rfl⟩
  · obtain ⟨m, rfl⟩ := Int.eq_ofNat_of_zero_le (le_of_lt h)
    exact ⟨_, base62.ToBase62_pos A hA m (by omega)⟩

/-- `ShortenURL` of a URL the reverse map holds: the stored code, no error, and
the service as it was. -/
theorem ShortenURL_stored (A : List Byte) (s : Service) (u c : GoString)
    (h : s.storage.longToShort.lookup u = some c) :
    s.ShortenURL A u = some ((c, none), s) := by
  simp [Service.ShortenURL, InMemoryStorage.GetShortCode, GoMap.index_of_lookup_some _ _ _ h]

/-- `ShortenURL` of a URL the reverse map does not hold, when the generated
code is not in the forward map: the pair is stored and the code returned. -/
theorem ShortenURL_fresh (A : List Byte) (s : Service) (u code : GoString)
    (hu : u ∉ s.storage.longToShort.keys)
    (hcode : base62.ToBase62 A (wrapInt64 (s.counter + 1)) = some code)
    (hc : code ∉ s.storage.shortToLong.keys) :
    s.ShortenURL A u =
      some ((code, none),
        { storage := { shortToLong := (code, u) :: s.storage.shortToLong,
                       longToShort := (u, code) :: s.storage.longToShort },
          counter := wrapInt64 (s.counter + 1) }) := by
  have hl := (GoMap.lookup_eq_none_iff _ _).mpr hu
  simp [Service.ShortenURL, Service.GenerateShortCode, InMemoryStorage.GetShortCode,
    GoMap.index_of_lookup_none _ _ hl, hcode, Save_of_absent _ _ _ hc hu]

/-- `ShortenURL` of a URL the reverse map does not hold, when the generated
code is already in the forward map: the wrapped storage error, the empty
string, the store as it was and the counter incremented. -/
theorem ShortenURL_collision (A : List Byte) (s : Service) (u code : GoString)
    (hu : u ∉ s.storage.longToShort.keys)
    (hcode : base62.ToBase62 A (wrapInt64 (s.counter + 1)) = some code)
    (hc : code ∈ s.storage.shortToLong.keys) :
    s.ShortenURL A u =
      some (([], some (GoError.wrap "failed to save URL mapping: "
                (GoError.new "short code already exists"))),
        { storage := s.storage, counter := wrapInt64 (s.counter + 1) }) := by
  have hl := (GoMap.lookup_eq_none_iff _ _).mpr hu
  simp [Service.ShortenURL, Service.GenerateShortCode, InMemoryStorage.GetShortCode,
    GoMap.index_of_lookup_none _ _ hl, hcode, Save_of_short_dup _ _ _ hc]

theorem GetLongURL_stored (s : Service) (c u : GoString)
    (h : s.storage.shortToLong.lookup c = some u) :
    s.GetLongURL c = ((u, none), s) := by
  simp [Service.GetLongURL, InMemoryStorage.Get, GoMap.index_of_lookup_some _ _ _ h]

theorem GetLongURL_state (s : Service) (c : GoString) : (s.GetLongURL c).2 = s := by
  simp only [Service.GetLongURL, InMemoryStorage.Get]
  split <;> rfl

theorem lookup_some_of_mem_keys (m : GoMap) (k : GoString) (h : k ∈ m.keys) :
    ∃ v, m.lookup k = some v := by
  have := (GoMap.lookup_isSome_iff m k).mpr h
  exact Option.isSome_iff_exists.mp this

end service

/-! ## The shortening service: the invariant of its runs -/

namespace service

open storage

theorem Inv_fresh (A : List Byte) : Inv A (NewService NewInMemoryStorage) where
  counter_nonneg := by simp [NewService]
  counter_le := by decide
  consistent := consistent_fresh
  codes := by
    intro c
    simp only [NewService, NewInMemoryStorage, GoMap.keys, List.map_nil, List.not_mem_nil,
      false_iff, not_exists, not_and]
    intro i h1 h2
    omega
  short_nodup := by simp [NewService, NewInMemoryStorage, GoMap.keys]
  long_nodup := by simp [NewService, NewInMemoryStorage, GoMap.keys]
  short_len := by simp [NewService, NewInMemoryStorage, GoMap.len]
  long_len := by simp [NewService, NewInMemoryStorage, GoMap.len]

/-- In a state of the invariant the code generated next is not stored yet,
also when the increment wraps around. -/
theorem next_code_not_stored (A : List Byte) (hA : 1 < A.length) (hnd : A.Nodup)
    (s : Service) (hs : Inv A s) (code : GoString)
    (hcode : base62.ToBase62 A (wrapInt64 (s.counter + 1)) = some code) :
    code ∉ s.storage.shortToLong.keys := by
  intro hmem
  obtain ⟨i, hi1, hi2, hi3⟩ := (hs.codes code).mp hmem
  have h0 := hs.counter_nonneg
  rcases lt_or_eq_of_le hs.counter_le with hlt | heq
  · rw [wrapInt64_succ _ h0 hlt] at hcode
    obtain ⟨m, hm⟩ := Int.eq_ofNat_of_zero_le h0
    have e : s.counter + 1 = ((m + 1 : Nat) : Int) := by
      rw [hm]
      norm_cast
    rw [e] at hcode
    have := base62.ToBase62_pos_inj A hA hnd i (m + 1) (by omega) (by omega)
      (hi3.trans hcode.symm)
    omega
  · rw [heq, wrapInt64_max, base62.ToBase62_neg A minInt64 (by decide)] at hcode
    have hnil : code = [] := (Option.some.inj hcode).symm
    rw [hnil] at hi3
    exact base62.ToBase62_pos_ne_nil A hA i (by omega) hi3

/-- The two runs `ShortenURL` has in a state of the invariant: the URL is
stored and its code is returned, or a new code is generated and stored. -/
theorem ShortenURL_cases (A : List Byte) (hA : 1 < A.length) (hnd : A.Nodup)
    (s : Service) (hs : Inv A s) (u : GoString) :
    (∃ c, s.storage.longToShort.lookup u = some c ∧
      s.ShortenURL A u = some ((c, none), s)) ∨
    (u ∉ s.storage.longToShort.keys ∧ ∃ code,
      base62.ToBase62 A (wrapInt64 (s.counter + 1)) = some code ∧
      code ∉ s.storage.shortToLong.keys ∧
      s.ShortenURL A u =
        some ((code, none),
          { storage := { shortToLong := (code, u) :: s.storage.shortToLong,
                         longToShort := (u, code) :: s.storage.longToShort },
            counter := wrapInt64 (s.counter + 1) })) := by
  by_cases hu : u ∈ s.storage.longToShort.keys
  · obtain ⟨c, hc⟩ := lookup_some_of_mem_keys _ _ hu
    exact Or.inl ⟨c, hc, ShortenURL_stored A s u c hc⟩
  · obtain ⟨code, hcode⟩ := ToBase62_total A hA (wrapInt64 (s.counter + 1))
    have hc := next_code_not_stored A hA hnd s hs code hcode
    exact Or.inr ⟨hu, code, hcode, hc, ShortenURL_fresh A s u code hu hcode hc⟩

/-- A `ShortenURL` call that does not wrap the counter keeps the invariant. -/
theorem Inv_shorten (A : List Byte) (hA : 1 < A.length) (hnd : A.Nodup)
    (s : Service) (hs : Inv A s) (u : GoString) (r : GoString × Option GoError)
    (s' : Service) (hcall : s.ShortenURL A u = some (r, s'))
    (hw : s'.counter = s.counter ∨ s'.counter = s.counter + 1) : Inv A s' := by
  rcases ShortenURL_cases A hA hnd s hs u with ⟨c, _, e⟩ | ⟨hu, code, hcode, hc, e⟩
  · rw [e] at hcall
    have := (Prod.mk.inj (Option.some.inj hcall)).2
    rw [← this]
    exact hs
  · rw [e] at hcall
    have hs' := (Prod.mk.inj (Option.some.inj hcall)).2
    have h0 := hs.counter_nonneg
    have hlt : s.counter < maxInt64 := by
      rcases lt_or_eq_of_le hs.counter_le with hlt | heq
      · exact hlt
      · exfalso
        rw [← hs'] at hw
        simp only [heq, wrapInt64_max] at hw
        revert hw
        decide
    have hwrap := wrapInt64_succ _ h0 hlt
    rw [hwrap] at hs' hcode
    obtain ⟨m, hm⟩ := Int.eq_ofNat_of_zero_le h0
    have e1 : s.counter + 1 = ((m + 1 : Nat) : Int) := by
      rw [hm]
      norm_cast
    rw [← hs']
    refine ⟨by simp only; omega, by simp only; omega,
      consistent_cons s.storage code u hs.consistent hc hu, ?_, ?_, ?_, ?_, ?_⟩
    · intro c
      simp only [GoMap.keys, List.map_cons, List.mem_cons]
      constructor
      · rintro (h | h)
        · exact ⟨m + 1, by omega, by omega, by rw [← e1, h]; exact hcode⟩
        · obtain ⟨i, hi1, hi2, hi3⟩ := (hs.codes c).mp h
          exact ⟨i, hi1, by omega, hi3⟩
      · rintro ⟨i, hi1, hi2, hi3⟩
        by_cases hi : i = m + 1
        · left
          rw [hi, ← e1, hcode] at hi3
          exact (Option.some.inj hi3).symm
        · right
          exact (hs.codes c).mpr ⟨i, hi1, by omega, hi3⟩
    · simp only [GoMap.keys, List.map_cons, List.nodup_cons]
      exact ⟨hc, hs.short_nodup⟩
    · simp only [GoMap.keys, List.map_cons, List.nodup_cons]
      exact ⟨hu, hs.long_nodup⟩
    · have := hs.short_len
      simp only [GoMap.len, List.length_cons] at this ⊢
      push_cast
      omega
    · have := hs.long_len
      simp only [GoMap.len, List.length_cons] at this ⊢
      omega

/-- A `ShortenURL` call in a state of the invariant keeps what the trace says
and adds its own event to it. -/
theorem TraceInv_shorten (A : List Byte) (hA : 1 < A.length) (hnd : A.Nodup)
    (tr : List Event) (s : Service) (hs : Inv A s) (ht : TraceInv tr s) (u : GoString)
    (r : GoString × Option GoError) (s' : Service)
    (hcall : s.ShortenURL A u = some (r, s')) :
    TraceInv (tr ++ [⟨Call.shorten u, r⟩]) s' := by
  rcases ShortenURL_cases A hA hnd s hs u with ⟨c, hl, e⟩ | ⟨hu, code, hcode, hc, e⟩
  · rw [e] at hcall
    obtain ⟨hr, hs'⟩ := Prod.mk.inj (Option.some.inj hcall)
    rw [← hs', ← hr]
    intro ev hev v hv
    rcases List.mem_append.mp hev with h | h
    · exact ht ev h v hv
    · rw [List.mem_singleton.mp h] at hv ⊢
      have : u = v := by injection hv
      rw [← this]
      exact ⟨rfl, hl⟩
  · rw [e] at hcall
    obtain ⟨hr, hs'⟩ := Prod.mk.inj (Option.some.inj hcall)
    rw [← hs', ← hr]
    intro ev hev v hv
    rcases List.mem_append.mp hev with h | h
    · obtain ⟨h1, h2⟩ := ht ev h v hv
      refine ⟨h1, ?_⟩
      have hne : ¬ u = v := by
        intro huv
        apply hu
        rw [huv]
        exact (GoMap.lookup_isSome_iff _ _).mp (by rw [h2]; rfl)
      simp only [GoMap.lookup, if_neg hne]
      exact h2
    · rw [List.mem_singleton.mp h] at hv ⊢
      have : u = v := by injection hv
      rw [← this]
      exact ⟨rfl, by simp [GoMap.lookup]⟩

/-- Every run ends in a state of the invariant that agrees with its trace. -/
theorem Run_inv (A : List Byte) (hA : 1 < A.length) (hnd : A.Nodup) (tr : List Event)
    (s : Service) (h : Run A tr s) : Inv A s ∧ TraceInv tr s := by
  induction h with
  | fresh => exact ⟨Inv_fresh A, fun e he => absurd he (List.not_mem_nil e)⟩
  | shorten tr s u r s' _ hcall hw ih =>
    exact ⟨Inv_shorten A hA hnd s ih.1 u r s' hcall hw,
      TraceInv_shorten A hA hnd tr s ih.1 ih.2 u r s' hcall⟩
  | resolve tr s c _ ih =>
    rw [GetLongURL_state]
    refine ⟨ih.1, ?_⟩
    intro ev hev v hv
    rcases List.mem_append.mp hev with h | h
    · exact ih.2 ev h v hv
    · rw [List.mem_singleton.mp h] at hv
      cases hv

theorem Reachable_inv (A : List Byte) (hA : 1 < A.length) (hnd : A.Nodup) (s : Service)
    (h : Reachable A s) : Inv A s := by
  obtain ⟨tr, htr⟩ := h
  exact (Run_inv A hA hnd tr s htr).1

end service

/-! ## The shortening service: round trip, idempotence, distinct codes -/

open service storage

/-- C1 (round trip).  With an alphabet of 62 pairwise distinct symbols, in
every state `s` that a service made by `NewService(NewInMemoryStorage())`
reaches by a finite sequence of sequential `ShortenURL` / `GetLongURL` calls
without overflow of the counter, and for every string `u`: `ShortenURL(u)`
returns a code `c` with a nil error, and `GetLongURL(c)` called right after
returns `u` with a nil error. -/
theorem round_trip (A : List Byte) (hlen : A.length = 62) (hnd : A.Nodup)
    (s : Service) (hs : Reachable A s) (u : GoString) :
    ∃ c s', s.ShortenURL A u = some ((c, none), s') ∧
      s'.GetLongURL c = ((u, none), s') := by
  have hA : 1 < A.length := by omega
  have hinv := Reachable_inv A hA hnd s hs
  rcases ShortenURL_cases A hA hnd s hinv u with ⟨c, hl, e⟩ | ⟨_, code, _, _, e⟩
  · exact ⟨c, s, e, GetLongURL_stored s c u ((hinv.consistent c u).mpr hl)⟩
  · exact ⟨code, _, e, GetLongURL_stored _ code u (by simp [GoMap.lookup])⟩

/-- C2 (idempotent shortening).  With an alphabet of 62 pairwise distinct
symbols, in every reachable state `s` and for every URL `u`, two `ShortenURL(u)`
calls in a row return the same code `c` with a nil error; the second call
returns the service in the very state `s1` the first one left, so it changes
neither the counter nor either map; and if `u` was not stored before the first
call, the counter after both calls is the `int64` sum `counter + 1`, which is
exactly `1` higher as long as the counter was below the greatest `int64` (the
increment does not overflow). -/
theorem shorten_twice (A : List Byte) (hlen : A.length = 62) (hnd : A.Nodup)
    (s : Service) (hs : Reachable A s) (u : GoString) :
    ∃ c s1, s.ShortenURL A u = some ((c, none), s1) ∧
      s1.ShortenURL A u = some ((c, none), s1) ∧
      (u ∉ s.storage.longToShort.keys →
        s1.counter = wrapInt64 (s.counter + 1) ∧
        (s.counter < maxInt64 → s1.counter = s.counter + 1)) := by
  have hA : 1 < A.length := by omega
  have hinv := Reachable_inv A hA hnd s hs
  rcases ShortenURL_cases A hA hnd s hinv u with ⟨c, hl, e⟩ | ⟨hu, code, _, _, e⟩
  · refine ⟨c, s, e, e, ?_⟩
    intro hu
    exact absurd ((GoMap.lookup_isSome_iff _ _).mp (by rw [hl]; rfl)) hu
  · refine ⟨code, _, e, ShortenURL_stored A _ u code (by simp [GoMap.lookup]), ?_⟩
    intro _
    exact ⟨rfl, fun hlt => wrapInt64_succ _ hinv.counter_nonneg hlt⟩

/-- C3 (distinct URLs get distinct codes).  With an alphabet of 62 pairwise
distinct symbols, in every finite sequence `tr` of sequential calls on a fresh
service without overflow of the counter, any two `ShortenURL` calls of `tr` for
URLs `u1 ≠ u2` both returned a nil error and returned different short codes. -/
theorem distinct_urls_distinct_codes (A : List Byte) (hlen : A.length = 62)
    (hnd : A.Nodup) (tr : List Event) (s : Service) (hrun : Run A tr s)
    (e1 e2 : Event) (h1 : e1 ∈ tr) (h2 : e2 ∈ tr) (u1 u2 : GoString)
    (hc1 : e1.call = Call.shorten u1) (hc2 : e2.call = Call.shorten u2)
    (hne : u1 ≠ u2) :
    e1.result.2 = none ∧ e2.result.2 = none ∧ e1.result.1 ≠ e2.result.1 := by
  have hA : 1 < A.length := by omega
  obtain ⟨hinv, ht⟩ := Run_inv A hA hnd tr s hrun
  obtain ⟨n1, l1⟩ := ht e1 h1 u1 hc1
  obtain ⟨n2, l2⟩ := ht e2 h2 u2 hc2
  refine ⟨n1, n2, ?_⟩
  intro heq
  have f1 := (hinv.consistent e1.result.1 u1).mpr l1
  have f2 := (hinv.consistent e2.result.1 u2).mpr l2
  rw [heq, f2] at f1
  exact hne (Option.some.inj f1).symm

/-- A run of two `ShortenURL` calls on a fresh service with the alphabet
`0-9 A-Z a-z`: the URLs `"a"` and `"b"` get the codes `"1"` and `"2"`. -/
theorem run_a_b :
    Run digitsUpperLower
      (([] ++ [⟨Call.shorten [97], ([49], none)⟩]) ++ [⟨Call.shorten [98], ([50], none)⟩])
      ⟨⟨[([50], [98]), ([49], [97])], [([98], [50]), ([97], [49])]⟩, 2⟩ :=
  Run.shorten _ ⟨⟨[([49], [97])], [([97], [49])]⟩, 1⟩ [98] ([50], none) _
    (Run.shorten [] (NewService NewInMemoryStorage) [97] ([49], none) _ Run.fresh
      (by decide) (by decide))
    (by decide) (by decide)

/-- C1 at a concrete input: the state after shortening `"a"` and `"b"`, and
the new URL `"c"`. -/
theorem round_trip_witness :
    ∃ c s', (⟨⟨[([50], [98]), ([49], [97])], [([98], [50]), ([97], [49])]⟩, 2⟩ : Service).ShortenURL
        digitsUpperLower [99] = some ((c, none), s') ∧
      s'.GetLongURL c = (([99], none), s') :=
  round_trip digitsUpperLower (by decide) (by decide) _ ⟨_, run_a_b⟩ [99]

/-- C2 at a concrete input: the state after shortening `"a"` and `"b"`, and
the new URL `"c"`. -/
theorem shorten_twice_witness :
    ∃ c s1, (⟨⟨[([50], [98]), ([49], [97])], [([98], [50]), ([97], [49])]⟩, 2⟩ : Service).ShortenURL
        digitsUpperLower [99] = some ((c, none), s1) ∧
      s1.ShortenURL digitsUpperLower [99] = some ((c, none), s1) ∧
      s1.counter = 2 + 1 := by
  obtain ⟨c, s1, h1, h2, h3⟩ := shorten_twice digitsUpperLower (by decide) (by decide) _
    ⟨_, run_a_b⟩ [99]
  exact ⟨c, s1, h1, h2, (h3 (by decide)).2 (by decide)⟩

/-- C3 at a concrete input: the two calls of the run `run_a_b`. -/
theorem distinct_urls_distinct_codes_witness :
    (⟨Call.shorten [97], ([49], none)⟩ : Event).result.2 = none ∧
      (⟨Call.shorten [98], ([50], none)⟩ : Event).result.2 = none ∧
      (⟨Call.shorten [97], ([49], none)⟩ : Event).result.1 ≠
        (⟨Call.shorten [98], ([50], none)⟩ : Event).result.1 :=
  distinct_urls_distinct_codes digitsUpperLower (by decide) (by decide) _ _ run_a_b
    ⟨Call.shorten [97], ([49], none)⟩ ⟨Call.shorten [98], ([50], none)⟩
    (by simp) (by simp) [97] [98] rfl rfl (by decide)

/-! ## Base-62 codes: no collisions, positional value, boundary values -/

/-- Where `string(alphabet[0])` is the byte `alphabet[0]` itself, `ToBase62` has
no collisions on non-negative inputs.  For every alphabet of 62 pairwise
distinct symbols and all integers `m ≠ n` with `0 ≤ m` and `0 ≤ n` (all
non-negative `int64` values among them), `ToBase62(m)` and `ToBase62(n)` both
return and return different strings, provided that the first symbol
`alphabet[0]` is an ASCII byte (below `0x80`), as in `0-9 A-Z a-z`, or neither
`m` nor `n` is `0`. -/
theorem ToBase62_collision_free (A : List Byte) (hlen : A.length = 62) (hnd : A.Nodup)
    (a0 : Byte) (h0 : A[0]? = some a0) (m n : Int) (hm : 0 ≤ m) (hn : 0 ≤ n)
    (hmn : m ≠ n) (hascii : m = 0 ∨ n = 0 → a0.val < 128) :
    ∃ a b, base62.ToBase62 A m = some a ∧ base62.ToBase62 A n = some b ∧ a ≠ b := by
  have hA : 1 < A.length := by omega
  obtain ⟨i, rfl⟩ := Int.eq_ofNat_of_zero_le hm
  obtain ⟨j, rfl⟩ := Int.eq_ofNat_of_zero_le hn
  refine ⟨_, _,
    base62.ToBase62_eq_digitsOf A hA a0 h0 i (fun e => hascii (Or.inl (by rw [e]; rfl))),
    base62.ToBase62_eq_digitsOf A hA a0 h0 j (fun e => hascii (Or.inr (by rw [e]; rfl))), ?_⟩
  intro h
  have h1 := base62.map_symbolOf_inj A hnd _ _ (base62.digitsOf_lt _ i hA)
    (base62.digitsOf_lt _ j hA) (List.reverse_injective h)
  have h2 := congrArg (Nat.ofDigits A.length) h1
  rw [base62.ofDigits_digitsOf, base62.ofDigits_digitsOf] at h2
  exact hmn (by rw [h2])

/-- C4 (a defect of the `n == 0` path of `ToBase62`).  `highBitAlphabet` is an
alphabet of 62 pairwise distinct symbols, and `ToBase62(0)` and `ToBase62(62)`
return the same string `"\xc2\x80"` with it.  For `n == 0` the code returns
`string(alphabet[0])`, which is the two-byte UTF-8 encoding of the code point
`0x80`; the division loop writes every digit, the digit `0` too, as the byte of
the alphabet itself, so that `62` is `alphabet[1] = 0xC2`, `alphabet[0] = 0x80`. -/
theorem ToBase62_collision_high_bit :
    highBitAlphabet.length = 62 ∧ highBitAlphabet.Nodup ∧ (0 : Int) ≠ 62 ∧
      base62.ToBase62 highBitAlphabet 0 = some [194, 128] ∧
      base62.ToBase62 highBitAlphabet 62 = some [194, 128] := by
  decide

/-- C5 (positional base-62 conversion).  With an alphabet of 62 pairwise
distinct symbols, for every integer `n ≥ 0` (every non-negative `int64` among
them) `ToBase62(n)` returns a string `s_0 … s_{k-1}` of symbols of the alphabet
with `k ≥ 1`, the sum over `i` of `idx(s_i) · 62^(k-1-i)` is `n`, and for
`n > 0` the leading symbol `s_0` is not `alphabet[0]`.  For `n = 0` the symbol
`alphabet[0]` is taken to be an ASCII byte, as `'0'` of the alphabet
`0-9 A-Z a-z` is: the code returns `string(alphabet[0])`, which is that one
byte then. -/
theorem ToBase62_positional (A : List Byte) (hlen : A.length = 62) (hnd : A.Nodup)
    (a0 : Byte) (h0 : A[0]? = some a0) (n : Int) (hn : 0 ≤ n)
    (hascii : n = 0 → a0.val < 128) :
    ∃ s, base62.ToBase62 A n = some s ∧ 1 ≤ s.length ∧ (∀ c ∈ s, c ∈ A) ∧
      (base62.positionalValue A s : Int) = n ∧ (0 < n → s.head? ≠ some a0) := by
  have hA : 1 < A.length := by omega
  obtain ⟨k, rfl⟩ := Int.eq_ofNat_of_zero_le hn
  have hlt := base62.digitsOf_lt A.length k hA
  refine ⟨_, base62.ToBase62_eq_digitsOf A hA a0 h0 k (fun e => hascii (by rw [e]; rfl)),
    ?_, ?_, ?_, ?_⟩
  · rw [List.length_reverse, List.length_map]
    exact List.length_pos.mpr (base62.digitsOf_ne_nil _ k)
  · intro c hc
    rw [List.mem_reverse, List.mem_map] at hc
    obtain ⟨d, hd, rfl⟩ := hc
    exact base62.symbolOf_mem A d (hlt d hd)
  · rw [base62.positionalValue_digits A hnd _ hlt, ← hlen, base62.ofDigits_digitsOf]
  · intro hpos
    have hk : k ≠ 0 := by omega
    have hd : base62.digitsOf A.length k = Nat.digits A.length k := by
      simp [base62.digitsOf, hk]
    have hne : Nat.digits A.length k ≠ [] :=
      fun e => hk (Nat.digits_eq_nil_iff_eq_zero.mp e)
    rw [hd, List.head?_reverse, List.getLast?_map, List.getLast?_eq_getLast _ hne]
    intro h
    have hs0 : base62.symbolOf A 0 = a0 := by
      have := base62.getElem?_eq_symbolOf A 0 (by omega)
      rw [h0] at this
      exact (Option.some.inj this).symm
    have hlast : base62.symbolOf A ((Nat.digits A.length k).getLast hne) =
        base62.symbolOf A 0 := by
      rw [hs0]
      exact Option.some.inj h
    have hmem := Nat.digits_lt_base hA (List.getLast_mem hne)
    have := base62.symbolOf_inj A hnd _ 0 hmem (by omega) hlast
    exact Nat.getLast_digit_ne_zero A.length hk this

/-- C5 at a concrete input: the alphabet `0-9 A-Z a-z` and `n = 3843`. -/
theorem ToBase62_positional_witness :
    ∃ s, base62.ToBase62 digitsUpperLower 3843 = some s ∧ 1 ≤ s.length ∧
      (∀ c ∈ s, c ∈ digitsUpperLower) ∧
      (base62.positionalValue digitsUpperLower s : Int) = 3843 ∧
      ((0 : Int) < 3843 → s.head? ≠ some 48) :=
  ToBase62_positional digitsUpperLower (by decide) (by decide) 48 (by decide)
    3843 (by decide) (fun _ => by decide)

/-- The boundary values of `ToBase62`.  For every 62-symbol alphabet, with `a0`,
`a1`, `a61` its symbols at the indices 0, 1 and 61: `ToBase62(61)` is the
one-symbol string `a61`, `ToBase62(62)` is the two-symbol string `a1 a0`, and
`ToBase62(0)` is `string(a0)`, which is the one-symbol string `a0` when `a0` is
an ASCII byte (below `0x80`), as in `0-9 A-Z a-z`. -/
theorem ToBase62_boundary (A : List Byte) (hlen : A.length = 62) :
    ∃ a0 a1 a61, A[0]? = some a0 ∧ A[1]? = some a1 ∧ A[61]? = some a61 ∧
      base62.ToBase62 A 0 = some (byteToString a0) ∧
      (a0.val < 128 → base62.ToBase62 A 0 = some [a0]) ∧
      base62.ToBase62 A 61 = some [a61] ∧
      base62.ToBase62 A 62 = some [a1, a0] := by
  have hA : 1 < A.length := by omega
  refine ⟨base62.symbolOf A 0, base62.symbolOf A 1, base62.symbolOf A 61,
    base62.getElem?_eq_symbolOf A 0 (by omega), base62.getElem?_eq_symbolOf A 1 (by omega),
    base62.getElem?_eq_symbolOf A 61 (by omega), ?_, ?_, ?_, ?_⟩
  · rw [base62.ToBase62_zero, base62.getElem?_eq_symbolOf A 0 (by omega)]
    rfl
  · intro h
    have := base62.ToBase62_eq_digitsOf A hA _ (base62.getElem?_eq_symbolOf A 0 (by omega)) 0
      (fun _ => h)
    simpa [base62.digitsOf] using this
  · have := base62.ToBase62_pos A hA 61 (by omega)
    rw [hlen] at this
    simpa using this
  · have := base62.ToBase62_pos A hA 62 (by omega)
    rw [hlen] at this
    simpa using this

/-- The extent of the defect.  With an alphabet of 62 pairwise distinct
symbols, the code of `0` is also the code of a positive number exactly when
`string(alphabet[0])` is two symbols of the alphabet, the first of them not
`alphabet[0]`; an ASCII `alphabet[0]` never is. -/
theorem ToBase62_zero_collides_iff (A : List Byte) (hlen : A.length = 62) (hnd : A.Nodup)
    (a0 : Byte) (h0 : A[0]? = some a0) :
    (∃ n : Int, 0 < n ∧ base62.ToBase62 A n = base62.ToBase62 A 0) ↔
      ∃ j k : Nat, 1 ≤ j ∧ j < 62 ∧ k < 62 ∧
        byteToString a0 = [base62.symbolOf A j, base62.symbolOf A k] := by
  have hA : 1 < A.length := by omega
  have hs0 : base62.symbolOf A 0 = a0 := by
    have := base62.getElem?_eq_symbolOf A 0 (by omega)
    rw [h0] at this
    exact (Option.some.inj this).symm
  have hzero : base62.ToBase62 A 0 = some (byteToString a0) := by
    rw [base62.ToBase62_zero, h0]
    rfl
  constructor
  · rintro ⟨n, hn, heq⟩
    obtain ⟨m, rfl⟩ := Int.eq_ofNat_of_zero_le (le_of_lt hn)
    have hm : m ≠ 0 := by omega
    rw [base62.ToBase62_pos A hA m (by omega), hzero, hlen] at heq
    have hrev := congrArg List.reverse (Option.some.inj heq)
    rw [List.reverse_reverse] at hrev
    have hne : Nat.digits 62 m ≠ [] := fun e => hm (Nat.digits_eq_nil_iff_eq_zero.mp e)
    have hlast := Nat.getLast_digit_ne_zero 62 hm
    have hlt : ∀ d ∈ Nat.digits 62 m, d < 62 := fun d hd => Nat.digits_lt_base (by omega) hd
    by_cases hascii : a0.val < 128
    · exfalso
      simp only [byteToString, hascii, if_true, List.reverse_cons, List.reverse_nil,
        List.nil_append] at hrev
      cases hD : Nat.digits 62 m with
      | nil => exact hne hD
      | cons d t =>
        rw [hD] at hrev
        cases t with
        | cons e t' => simp at hrev
        | nil =>
          simp only [List.map_cons, List.map_nil, List.cons.injEq, and_true] at hrev
          have hd : d < 62 := hlt d (by rw [hD]; simp)
          have := base62.symbolOf_inj A hnd d 0 (by omega) (by omega) (by rw [hrev, hs0])
          apply hlast
          simp only [hD, List.getLast_singleton]
          exact this
    · simp only [byteToString, hascii, if_false, List.reverse_cons, List.reverse_nil,
        List.nil_append, List.singleton_append] at hrev
      cases hD : Nat.digits 62 m with
      | nil => exact absurd hD hne
      | cons d0 t =>
        rw [hD] at hrev
        cases t with
        | nil => simp at hrev
        | cons d1 t' =>
          cases t' with
          | cons e t'' => simp at hrev
          | nil =>
            simp only [List.map_cons, List.map_nil, List.cons.injEq, and_true] at hrev
            have hd0 : d0 < 62 := hlt d0 (by rw [hD]; simp)
            have hd1 : d1 < 62 := hlt d1 (by rw [hD]; simp)
            have hd1' : d1 ≠ 0 := by
              have := hlast
              simp only [hD] at this
              simpa using this
            refine ⟨d1, d0, by omega, hd1, hd0, ?_⟩
            simp only [byteToString, hascii, if_false, List.cons.injEq, and_true]
            exact ⟨hrev.2.symm, hrev.1.symm⟩
  · rintro ⟨j, k, hj1, hj2, hk, hb⟩
    refine ⟨((62 * j + k : Nat) : Int), by omega, ?_⟩
    have hpos : 0 < 62 * j + k := by omega
    have hd : Nat.digits 62 (62 * j + k) = [k, j] := by
      rw [Nat.digits_def' (by omega) hpos]
      have e1 : (62 * j + k) % 62 = k := by omega
      have e2 : (62 * j + k) / 62 = j := by omega
      rw [e1, e2, Nat.digits_def' (by omega) (by omega : 0 < j)]
      have e3 : j % 62 = j := Nat.mod_eq_of_lt hj2
      have e4 : j / 62 = 0 := Nat.div_eq_of_lt hj2
      rw [e3, e4]
      simp
    rw [base62.ToBase62_pos A hA _ hpos, hzero, hlen, hd, hb]
    rfl

/-- C6 (a defect of the `n == 0` path of `ToBase62`).  `highBitAlphabet` has 62
symbols and its first symbol is the byte `0x80`; `ToBase62(0)` is not the
one-symbol string of that byte but the two bytes `0xC2 0x80` that
`string(alphabet[0])` is in Go.  The division loop writes the digit `0` as the
byte `0x80` itself: `ToBase62(3844)`, with the digits `1 0 0`, ends in it
twice. -/
theorem ToBase62_zero_high_bit :
    highBitAlphabet.length = 62 ∧ highBitAlphabet[0]? = some 128 ∧
      base62.ToBase62 highBitAlphabet 0 = some [194, 128] ∧
      base62.ToBase62 highBitAlphabet 0 ≠ some [128] ∧
      base62.ToBase62 highBitAlphabet 3844 = some [194, 128, 128] := by
  decide

/-! ## The mapping store: when `Save` fails, with what, and what it leaves -/

/-- C7 (`Save` fails exactly on the two duplicate conditions).  For every store
and every pair `(shortCode, longURL)`, `Save` returns a non-nil error if and
only if `shortCode` is a key of `shortToLong` or `longURL` is a key of
`longToShort`; so it returns nil exactly when neither is. -/
theorem Save_error_iff_duplicate (st : InMemoryStorage) (shortCode longURL : GoString) :
    (st.Save shortCode longURL).1 ≠ none ↔
      (shortCode ∈ st.shortToLong.keys ∨ longURL ∈ st.longToShort.keys) := by
  rcases Save_cases st shortCode longURL with ⟨hc, e⟩ | ⟨_, hu, e⟩ | ⟨hc, hu, e⟩
  · rw [e]
    exact ⟨fun _ => Or.inl hc, fun _ => by simp⟩
  · rw [e]
    exact ⟨fun _ => Or.inr hu, fun _ => by simp⟩
  · rw [e]
    constructor
    · intro h
      exact absurd rfl h
    · rintro (h | h)
      · exact absurd h hc
      · exact absurd h hu

/-- C8, as the code has it.  For every store and every pair
`(shortCode, longURL)`: if `shortCode` is a key of the forward map, `Save`
fails with the error `"short code already exists"`; if `shortCode` is not a key
of the forward map and `longURL` is a key of the reverse map, `Save` fails with
the error `"long URL already shortened"`. -/
theorem Save_error_kind (st : InMemoryStorage) (shortCode longURL : GoString) :
    (shortCode ∈ st.shortToLong.keys →
      (st.Save shortCode longURL).1 = some (GoError.new "short code already exists")) ∧
    (shortCode ∉ st.shortToLong.keys → longURL ∈ st.longToShort.keys →
      (st.Save shortCode longURL).1 = some (GoError.new "long URL already shortened")) := by
  constructor
  · intro hc
    rw [Save_of_short_dup st _ _ hc]
  · intro hc hu
    rw [Save_of_long_dup st _ _ hc hu]

/-- C8 at concrete inputs: in the store that holds `("a", "x")`, saving
`("a", "y")` meets the first condition and saving `("b", "x")` the second. -/
theorem Save_error_kind_witness :
    (NewInMemoryStorage.Save [97] [120]).2.Save [97] [121] =
        (some (GoError.new "short code already exists"),
          (NewInMemoryStorage.Save [97] [120]).2) ∧
      ((NewInMemoryStorage.Save [97] [120]).2.Save [98] [120]).1 =
        some (GoError.new "long URL already shortened") :=
  ⟨by decide,
    (Save_error_kind (NewInMemoryStorage.Save [97] [120]).2 [98] [120]).2
      (by decide) (by decide)⟩

/-- C8 as stated fails: in the store that holds `("a", "x")`, the long URL
`"x"` is a key of the reverse map, and `Save("a", "x")` does not fail with
`"long URL already shortened"` but with `"short code already exists"`: the
forward map is looked at first. -/
theorem Save_both_duplicates :
    ([120] : GoString) ∈ (NewInMemoryStorage.Save [97] [120]).2.longToShort.keys ∧
      ((NewInMemoryStorage.Save [97] [120]).2.Save [97] [120]).1 =
        some (GoError.new "short code already exists") ∧
      ((NewInMemoryStorage.Save [97] [120]).2.Save [97] [120]).1 ≠
        some (GoError.new "long URL already shortened") := by
  decide

/-- C9 (`Save` is all-or-nothing).  For every store and every pair
`(shortCode, longURL)`: if `Save` returns an error, the store (both maps) is
exactly as before; if it returns nil, then afterwards `Get(shortCode)` is
`(longURL, true)`, `GetShortCode(longURL)` is `(shortCode, true)`, and `Get` and
`GetShortCode` of every other key return what they returned before.  `Get` and
`GetShortCode` leave the store as it is. -/
theorem Save_all_or_nothing (st : InMemoryStorage) (shortCode longURL : GoString) :
    ((st.Save shortCode longURL).1 ≠ none → (st.Save shortCode longURL).2 = st) ∧
    ((st.Save shortCode longURL).1 = none →
      ((st.Save shortCode longURL).2.Get shortCode).1 = (longURL, true) ∧
      ((st.Save shortCode longURL).2.GetShortCode longURL).1 = (shortCode, true) ∧
      (∀ c, c ≠ shortCode → ((st.Save shortCode longURL).2.Get c).1 = (st.Get c).1) ∧
      (∀ u, u ≠ longURL →
        ((st.Save shortCode longURL).2.GetShortCode u).1 = (st.GetShortCode u).1)) ∧
    (∀ k, (st.Get k).2 = st) ∧ (∀ k, (st.GetShortCode k).2 = st) := by
  refine ⟨?_, ?_, fun _ => rfl, fun _ => rfl⟩
  · rcases Save_cases st shortCode longURL with ⟨_, e⟩ | ⟨_, _, e⟩ | ⟨_, _, e⟩
    · rw [e]; exact fun _ => rfl
    · rw [e]; exact fun _ => rfl
    · rw [e]; exact fun h => absurd rfl h
  · rcases Save_cases st shortCode longURL with ⟨_, e⟩ | ⟨_, _, e⟩ | ⟨_, _, e⟩
    · rw [e]; exact fun h => absurd h (by simp)
    · rw [e]; exact fun h => absurd h (by simp)
    · rw [e]
      intro _
      refine ⟨by simp [InMemoryStorage.Get, GoMap.index, GoMap.lookup],
        by simp [InMemoryStorage.GetShortCode, GoMap.index, GoMap.lookup], ?_, ?_⟩
      · intro c hc
        simp [InMemoryStorage.Get, GoMap.index, GoMap.lookup, Ne.symm hc]
      · intro u hu
        simp [InMemoryStorage.GetShortCode, GoMap.index, GoMap.lookup, Ne.symm hu]

/-- C9 at concrete inputs: a `Save` that fails and a `Save` that succeeds in
the store that holds `("a", "x")`. -/
theorem Save_all_or_nothing_witness :
    (NewInMemoryStorage.Save [97] [120]).2.Save [97] [121] =
        (some (GoError.new "short code already exists"),
          (NewInMemoryStorage.Save [97] [120]).2) ∧
      ((NewInMemoryStorage.Save [97] [120]).2.Save [97] [121]).2 =
        (NewInMemoryStorage.Save [97] [120]).2 ∧
      ((NewInMemoryStorage.Save [97] [120]).2.Save [98] [121]).1 = none ∧
      ((((NewInMemoryStorage.Save [97] [120]).2.Save [98] [121]).2).Get [98]).1 =
        ([121], true) :=
  ⟨by decide,
    (Save_all_or_nothing (NewInMemoryStorage.Save [97] [120]).2 [97] [121]).1 (by decide),
    by decide,
    ((Save_all_or_nothing (NewInMemoryStorage.Save [97] [120]).2 [98] [121]).2.1
      (by decide)).1⟩

theorem storage_reachable_facts (st : InMemoryStorage) (h : storage.Reachable st) :
    Consistent st ∧ st.shortToLong.keys.Nodup ∧ st.longToShort.keys.Nodup ∧
      st.shortToLong.len = st.longToShort.len := by
  induction h with
  | fresh => exact ⟨consistent_fresh, by simp [NewInMemoryStorage, GoMap.keys],
      by simp [NewInMemoryStorage, GoMap.keys], rfl⟩
  | save st c u _ ih =>
    obtain ⟨h1, h2, h3, h4⟩ := ih
    rcases Save_cases st c u with ⟨_, e⟩ | ⟨_, _, e⟩ | ⟨hc, hu, e⟩
    · rw [e]; exact ⟨h1, h2, h3, h4⟩
    · rw [e]; exact ⟨h1, h2, h3, h4⟩
    · rw [e]
      refine ⟨consistent_cons st c u h1 hc hu, ?_, ?_, ?_⟩
      · simp only [GoMap.keys, List.map_cons, List.nodup_cons]
        exact ⟨hc, h2⟩
      · simp only [GoMap.keys, List.map_cons, List.nodup_cons]
        exact ⟨hu, h3⟩
      · simp only [GoMap.len, List.length_cons] at h4 ⊢
        omega

/-- C10 (the two projections agree, as an invariant).  The agreement
`shortToLong[s] = l ↔ longToShort[l] = s` holds of `NewInMemoryStorage()`, and
every `Save`, failing or not, preserves it; hence in every store reached by
`Save` calls it holds, both maps are injective, each has one entry per key and
the two have the same number of entries. -/
theorem projections_consistent :
    Consistent NewInMemoryStorage ∧
    (∀ st shortCode longURL, Consistent st → Consistent (st.Save shortCode longURL).2) ∧
    (∀ st, storage.Reachable st →
      (∀ s l, st.shortToLong.lookup s = some l ↔ st.longToShort.lookup l = some s) ∧
      (∀ s s' l, st.shortToLong.lookup s = some l → st.shortToLong.lookup s' = some l →
        s = s') ∧
      (∀ l l' s, st.longToShort.lookup l = some s → st.longToShort.lookup l' = some s →
        l = l') ∧
      st.shortToLong.keys.Nodup ∧ st.longToShort.keys.Nodup ∧
      st.shortToLong.len = st.longToShort.len) := by
  refine ⟨consistent_fresh, fun st c u h => consistent_Save st c u h, ?_⟩
  intro st hst
  obtain ⟨h1, h2, h3, h4⟩ := storage_reachable_facts st hst
  refine ⟨h1, ?_, ?_, h2, h3, h4⟩
  · intro s s' l e1 e2
    have f1 := (h1 s l).mp e1
    have f2 := (h1 s' l).mp e2
    rw [f1] at f2
    exact Option.some.inj f2
  · intro l l' s e1 e2
    have f1 := (h1 s l).mpr e1
    have f2 := (h1 s l').mpr e2
    rw [f1] at f2
    exact Option.some.inj f2

/-- C10 at a concrete input: the store after `Save("a", "x")`, `Save("a", "y")`
(which fails) and `Save("b", "y")`. -/
theorem projections_consistent_witness :
    Consistent (((NewInMemoryStorage.Save [97] [120]).2.Save [97] [121]).2.Save [98] [121]).2 ∧
      (((NewInMemoryStorage.Save [97] [120]).2.Save [97] [121]).2.Save
        [98] [121]).2.shortToLong.len = 2 ∧
      (((NewInMemoryStorage.Save [97] [120]).2.Save [97] [121]).2.Save
        [98] [121]).2.longToShort.len = 2 :=
  ⟨(projections_consistent.2.2 _
      (storage.Reachable.save _ [98] [121]
        (storage.Reachable.save _ [97] [121]
          (storage.Reachable.save _ [97] [120] storage.Reachable.fresh)))).1,
    by decide, by decide⟩

/-! ## The shortening service over any state -/

namespace service

open storage

theorem GetLongURL_absent (s : Service) (c : GoString)
    (h : c ∉ s.storage.shortToLong.keys) :
    s.GetLongURL c = (([], some (GoError.new "short code not found")), s) := by
  have hl := (GoMap.lookup_eq_none_iff _ _).mpr h
  simp [Service.GetLongURL, InMemoryStorage.Get, GoMap.index_of_lookup_none _ _ hl]

/-- `ShortenURL` of a URL the reverse map does not hold, when `ToBase62` does
not return: the call does not return. -/
theorem ShortenURL_no_code (A : List Byte) (s : Service) (u : GoString)
    (hu : u ∉ s.storage.longToShort.keys)
    (hcode : base62.ToBase62 A (wrapInt64 (s.counter + 1)) = none) :
    s.ShortenURL A u = none := by
  have hl := (GoMap.lookup_eq_none_iff _ _).mpr hu
  simp [Service.ShortenURL, Service.GenerateShortCode, InMemoryStorage.GetShortCode,
    GoMap.index_of_lookup_none _ _ hl, hcode]

/-- The four runs of `ShortenURL`, in any state. -/
theorem ShortenURL_outcomes (A : List Byte) (s : Service) (u : GoString) :
    (∃ c, s.storage.longToShort.lookup u = some c ∧
      s.ShortenURL A u = some ((c, none), s)) ∨
    (u ∉ s.storage.longToShort.keys ∧
      base62.ToBase62 A (wrapInt64 (s.counter + 1)) = none ∧ s.ShortenURL A u = none) ∨
    (u ∉ s.storage.longToShort.keys ∧ ∃ code,
      base62.ToBase62 A (wrapInt64 (s.counter + 1)) = some code ∧
      code ∈ s.storage.shortToLong.keys ∧
      s.ShortenURL A u =
        some (([], some (GoError.wrap "failed to save URL mapping: "
                  (GoError.new "short code already exists"))),
          { storage := s.storage, counter := wrapInt64 (s.counter + 1) })) ∨
    (u ∉ s.storage.longToShort.keys ∧ ∃ code,
      base62.ToBase62 A (wrapInt64 (s.counter + 1)) = some code ∧
      code ∉ s.storage.shortToLong.keys ∧
      s.ShortenURL A u =
        some ((code, none),
          { storage := { shortToLong := (code, u) :: s.storage.shortToLong,
                         longToShort := (u, code) :: s.storage.longToShort },
            counter := wrapInt64 (s.counter + 1) })) := by
  by_cases hu : u ∈ s.storage.longToShort.keys
  · obtain ⟨c, hc⟩ := lookup_some_of_mem_keys _ _ hu
    exact Or.inl ⟨c, hc, ShortenURL_stored A s u c hc⟩
  · cases hcode : base62.ToBase62 A (wrapInt64 (s.counter + 1)) with
    | none => exact Or.inr (Or.inl ⟨hu, rfl, ShortenURL_no_code A s u hu hcode⟩)
    | some code =>
      by_cases hc : code ∈ s.storage.shortToLong.keys
      · exact Or.inr (Or.inr (Or.inl
          ⟨hu, code, rfl, hc, ShortenURL_collision A s u code hu hcode hc⟩))
      · exact Or.inr (Or.inr (Or.inr
          ⟨hu, code, rfl, hc, ShortenURL_fresh A s u code hu hcode hc⟩))

/-- Over `*InMemoryStorage` the service of the interface is `ShortenURL`. -/
theorem ShortenURLOver_inMemory (A : List Byte) (s : Service) (u : GoString) :
    ShortenURLOver inMemory A ⟨s.storage, s.counter⟩ u =
      (s.ShortenURL A u).map (fun x => (x.1, ⟨x.2.storage, x.2.counter⟩)) := by
  simp only [ShortenURLOver, inMemory, Service.ShortenURL, Service.GenerateShortCode,
    InMemoryStorage.GetShortCode]
  by_cases h : (s.storage.longToShort.index u).2 = true
  · simp [h]
  · simp only [h]
    cases base62.ToBase62 A (wrapInt64 (s.counter + 1)) with
    | none => simp
    | some code =>
      simp only [Option.map_some']
      cases (s.storage.Save code u).1 <;> simp

/-- The counting storage changes no result and no map: forgetting the count,
the service over it does what `ShortenURL` does. -/
theorem ShortenURLOver_counting (A : List Byte) (s : Service) (k : Nat) (u : GoString) :
    (ShortenURLOver counting A ⟨⟨s.storage, k⟩, s.counter⟩ u).map
        (fun x => (x.1, (⟨x.2.storage.inner, x.2.counter⟩ : Service))) =
      s.ShortenURL A u := by
  simp only [ShortenURLOver, counting, Service.ShortenURL, Service.GenerateShortCode,
    InMemoryStorage.GetShortCode]
  by_cases h : (s.storage.longToShort.index u).2 = true
  · simp [h]
  · simp only [h]
    cases base62.ToBase62 A (wrapInt64 (s.counter + 1)) with
    | none => simp
    | some code =>
      simp only [Option.map_some']
      cases (s.storage.Save code u).1 <;> simp

end service

/-! ## The shortening service: errors and the example of the specification -/

/-- C11 (resolving an unknown code is NotFound).  For every service state and
every `shortCode`: `GetLongURL(shortCode)` returns the empty string with the
error `"short code not found"` if and only if `shortCode` is not a key of the
forward map; when it is a key, the stored long URL is returned with a nil
error; so an unknown short code never yields a nil error; and the call leaves
the service (store and counter) as it was. -/
theorem GetLongURL_not_found (s : Service) (shortCode : GoString) :
    ((s.GetLongURL shortCode).1 = ([], some (GoError.new "short code not found")) ↔
      shortCode ∉ s.storage.shortToLong.keys) ∧
    (shortCode ∈ s.storage.shortToLong.keys →
      ∃ u, s.storage.shortToLong.lookup shortCode = some u ∧
        (s.GetLongURL shortCode).1 = (u, none)) ∧
    (shortCode ∉ s.storage.shortToLong.keys → (s.GetLongURL shortCode).1.2 ≠ none) ∧
    (GoError.new "short code not found").Error = "short code not found" ∧
    (s.GetLongURL shortCode).2 = s := by
  refine ⟨?_, ?_, ?_, rfl, GetLongURL_state s shortCode⟩
  · by_cases h : shortCode ∈ s.storage.shortToLong.keys
    · obtain ⟨u, hu⟩ := lookup_some_of_mem_keys _ _ h
      rw [GetLongURL_stored s shortCode u hu]
      simp [h]
    · rw [GetLongURL_absent s shortCode h]
      simp [h]
  · intro h
    obtain ⟨u, hu⟩ := lookup_some_of_mem_keys _ _ h
    exact ⟨u, hu, by rw [GetLongURL_stored s shortCode u hu]⟩
  · intro h
    rw [GetLongURL_absent s shortCode h]
    simp

/-- C11 at concrete inputs: in the state after shortening `"a"` and `"b"`, the
code `"1"` resolves to `"a"` and the unknown code `"3"` is not found. -/
theorem GetLongURL_not_found_witness :
    ((⟨⟨[([50], [98]), ([49], [97])], [([98], [50]), ([97], [49])]⟩, 2⟩ :
        Service).GetLongURL [49]).1 = ([97], none) ∧
    ((⟨⟨[([50], [98]), ([49], [97])], [([98], [50]), ([97], [49])]⟩, 2⟩ :
        Service).GetLongURL [51]).1.2 ≠ none :=
  ⟨by decide,
    (GetLongURL_not_found ⟨⟨[([50], [98]), ([49], [97])], [([98], [50]), ([97], [49])]⟩, 2⟩
      [51]).2.2.1 (by decide)⟩

/-- C13 (a failed save is reported, not retried).  For every service state and
URL `u` that the reverse map does not hold, when the code generated next,
`ToBase62` of the `int64` sum `counter + 1`, is a key of the forward map:
`ShortenURL(u)` returns the empty string and an error that wraps the storage
error `"short code already exists"` and has the message
`"failed to save URL mapping: short code already exists"`; both maps are as
before; and run over a storage that counts its `Save` calls, the call makes
exactly one. -/
theorem failed_save_reported (A : List Byte) (s : Service) (u code : GoString)
    (hu : u ∉ s.storage.longToShort.keys)
    (hcode : base62.ToBase62 A (wrapInt64 (s.counter + 1)) = some code)
    (hc : code ∈ s.storage.shortToLong.keys) :
    ∃ err s', s.ShortenURL A u = some (([], some err), s') ∧
      err.Unwrap = some (GoError.new "short code already exists") ∧
      err.Error = "failed to save URL mapping: short code already exists" ∧
      s'.storage.shortToLong = s.storage.shortToLong ∧
      s'.storage.longToShort = s.storage.longToShort ∧
      ∀ k, ShortenURLOver counting A ⟨⟨s.storage, k⟩, s.counter⟩ u =
        some (([], some err), ⟨⟨s'.storage, k + 1⟩, s'.counter⟩) := by
  refine ⟨_, _, ShortenURL_collision A s u code hu hcode hc, rfl, by decide, rfl, rfl, ?_⟩
  intro k
  have hl := (GoMap.lookup_eq_none_iff _ _).mpr hu
  simp [ShortenURLOver, counting, InMemoryStorage.GetShortCode,
    GoMap.index_of_lookup_none _ _ hl, hcode, Save_of_short_dup _ _ _ hc]

/-- C13 at a concrete input: a service made over a store that already holds
`("1", "x")`, with the counter at `0`, asked to shorten `"y"`. -/
theorem failed_save_reported_witness :
    ∃ err s', (⟨⟨[([49], [120])], [([120], [49])]⟩, 0⟩ : Service).ShortenURL
        digitsUpperLower [121] = some (([], some err), s') ∧
      err.Unwrap = some (GoError.new "short code already exists") ∧
      err.Error = "failed to save URL mapping: short code already exists" ∧
      s'.storage.shortToLong = [([49], [120])] ∧
      s'.storage.longToShort = [([120], [49])] ∧
      ∀ k, ShortenURLOver counting digitsUpperLower
          ⟨⟨⟨[([49], [120])], [([120], [49])]⟩, k⟩, 0⟩ [121] =
        some (([], some err), ⟨⟨s'.storage, k + 1⟩, s'.counter⟩) :=
  failed_save_reported digitsUpperLower ⟨⟨[([49], [120])], [([120], [49])]⟩, 0⟩ [121] [49]
    (by decide) (by decide) (by decide)

/-- C14 (the error `"long URL already shortened"` does not come out of the
service).  For every service state over an `InMemoryStorage`, reachable or
not, and every URL `u`: when `ShortenURL(u)` returns, its error is nil or wraps
`"short code already exists"`; it never wraps `"long URL already shortened"`. -/
theorem duplicate_long_url_unreachable (A : List Byte) (s : Service) (u : GoString)
    (r : GoString × Option GoError) (s' : Service)
    (h : s.ShortenURL A u = some (r, s')) :
    (r.2 = none ∨ r.2 = some (GoError.wrap "failed to save URL mapping: "
        (GoError.new "short code already exists"))) ∧
    (∀ err, r.2 = some err →
      err.Unwrap ≠ some (GoError.new "long URL already shortened") ∧
      err.Error ≠ "failed to save URL mapping: long URL already shortened") := by
  have key : r.2 = none ∨ r.2 = some (GoError.wrap "failed to save URL mapping: "
      (GoError.new "short code already exists")) := by
    rcases ShortenURL_outcomes A s u with ⟨c, _, e⟩ | ⟨_, _, e⟩ | ⟨_, code, _, _, e⟩ |
      ⟨_, code, _, _, e⟩
    · rw [e] at h
      have := (Prod.mk.inj (Option.some.inj h)).1
      left
      rw [← this]
    · rw [e] at h
      cases h
    · rw [e] at h
      have := (Prod.mk.inj (Option.some.inj h)).1
      right
      rw [← this]
    · rw [e] at h
      have := (Prod.mk.inj (Option.some.inj h)).1
      left
      rw [← this]
  refine ⟨key, ?_⟩
  intro err herr
  rcases key with k | k
  · rw [k] at herr
    cases herr
  · rw [k] at herr
    have := Option.some.inj herr
    rw [← this]
    exact ⟨by decide, by decide⟩

/-- C14 at a concrete input: a service made over a store that already holds
`("1", "x")`, with the counter at `0`, asked to shorten `"y"`; the error of the
call wraps `"short code already exists"`. -/
theorem duplicate_long_url_unreachable_witness :
    ((([], some (GoError.wrap "failed to save URL mapping: "
          (GoError.new "short code already exists"))) : GoString × Option GoError).2 = none ∨
      (([], some (GoError.wrap "failed to save URL mapping: "
          (GoError.new "short code already exists"))) : GoString × Option GoError).2 =
        some (GoError.wrap "failed to save URL mapping: "
          (GoError.new "short code already exists"))) ∧
    (∀ err, (([], some (GoError.wrap "failed to save URL mapping: "
          (GoError.new "short code already exists"))) : GoString × Option GoError).2 =
        some err →
      err.Unwrap ≠ some (GoError.new "long URL already shortened") ∧
      err.Error ≠ "failed to save URL mapping: long URL already shortened") :=
  duplicate_long_url_unreachable digitsUpperLower
    ⟨⟨[([49], [120])], [([120], [49])]⟩, 0⟩ [121]
    ([], some (GoError.wrap "failed to save URL mapping: "
      (GoError.new "short code already exists")))
    ⟨⟨[([49], [120])], [([120], [49])]⟩, 1⟩ (by decide)

/-- C15 (the example of the specification).  With the alphabet `0-9 A-Z a-z`
and a fresh service: `ShortenURL("https://example.com/a/b")` returns `"1"` and
leaves the counter at `1`; then `ShortenURL("https://example.com/c")` returns
`"2"` and leaves the counter at `2`; then `GetLongURL("1")` returns
`"https://example.com/a/b"`; all three with a nil error. -/
theorem spec_example_trace :
    digitsUpperLower =
      bytesOf "0123456789ABCDEFGHIJKLMNOPQRSTUVWXYZabcdefghijklmnopqrstuvwxyz" ∧
    ∃ s1 s2,
      (NewService NewInMemoryStorage).ShortenURL digitsUpperLower
          (bytesOf "https://example.com/a/b") = some ((bytesOf "1", none), s1) ∧
      s1.counter = 1 ∧
      s1.ShortenURL digitsUpperLower (bytesOf "https://example.com/c") =
          some ((bytesOf "2", none), s2) ∧
      s2.counter = 2 ∧
      (s2.GetLongURL (bytesOf "1")).1 = (bytesOf "https://example.com/a/b", none) := by
  refine ⟨by decide,
    ⟨⟨[(bytesOf "1", bytesOf "https://example.com/a/b")],
        [(bytesOf "https://example.com/a/b", bytesOf "1")]⟩, 1⟩,
    ⟨⟨[(bytesOf "2", bytesOf "https://example.com/c"),
         (bytesOf "1", bytesOf "https://example.com/a/b")],
        [(bytesOf "https://example.com/c", bytesOf "2"),
         (bytesOf "https://example.com/a/b", bytesOf "1")]⟩, 2⟩,
    by decide, rfl, by decide, rfl, by decide⟩

/-! ## The counter: one increment per generated code -/

namespace service

open storage

theorem wrapInt64_succ_of_lt (c : Int) (h0 : minInt64 ≤ c) (h1 : c < maxInt64) :
    wrapInt64 (c + 1) = c + 1 := by
  unfold wrapInt64
  unfold maxInt64 at h1
  unfold minInt64 at h0
  omega

theorem storage_cons_ne (st : InMemoryStorage) (c u : GoString) :
    ({ shortToLong := (c, u) :: st.shortToLong,
       longToShort := (u, c) :: st.longToShort } : InMemoryStorage) ≠ st := by
  intro h
  have := congrArg InMemoryStorage.shortToLong h
  exact List.cons_ne_self _ _ this

/-- Two non-negative numbers with the same code are equal, when the symbols are
distinct and `alphabet[0]` is ASCII in case one of them is `0`. -/
theorem ToBase62_nat_inj (A : List Byte) (hA : 1 < A.length) (hnd : A.Nodup) (a0 : Byte)
    (h0 : A[0]? = some a0) (i j : Nat) (hi : i = 0 → a0.val < 128)
    (hj : j = 0 → a0.val < 128)
    (h : base62.ToBase62 A (i : Int) = base62.ToBase62 A (j : Int)) : i = j := by
  rw [base62.ToBase62_eq_digitsOf A hA a0 h0 i hi,
    base62.ToBase62_eq_digitsOf A hA a0 h0 j hj] at h
  have h1 := base62.map_symbolOf_inj A hnd _ _ (base62.digitsOf_lt _ i hA)
    (base62.digitsOf_lt _ j hA) (List.reverse_injective (Option.some.inj h))
  have h2 := congrArg (Nat.ofDigits A.length) h1
  rw [base62.ofDigits_digitsOf, base62.ofDigits_digitsOf] at h2
  exact h2

end service

/-- C12, as the code has it.  `NewService` sets the counter to `0`.  For every
service state and every URL `u`, `ShortenURL(u)` returns; it leaves the service
(counter and store) as it was when `u` is already in the reverse map, and
otherwise it sets the counter to the `int64` sum `counter + 1`, which is exactly
`1` higher for a counter below the greatest `int64`, whether the save that
follows creates the record or fails.  In every reachable state with the
counter below the greatest `int64` (two conditions on the alphabet: 62 symbols,
pairwise distinct) the save does not fail: the call raises the counter by
exactly `1` when it changes the store and leaves it unchanged when it does
not. -/
theorem counter_per_shorten (A : List Byte) (hlen : A.length = 62) (hnd : A.Nodup) :
    (∀ st, (NewService st).counter = 0) ∧
    (∀ (s : Service) (u : GoString), ∃ r s', s.ShortenURL A u = some (r, s') ∧
      (u ∈ s.storage.longToShort.keys → s' = s) ∧
      (u ∉ s.storage.longToShort.keys →
        s'.counter = wrapInt64 (s.counter + 1) ∧
        (minInt64 ≤ s.counter → s.counter < maxInt64 → s'.counter = s.counter + 1))) ∧
    (∀ (s : Service), Reachable A s → s.counter < maxInt64 → ∀ u : GoString,
      ∃ r s', s.ShortenURL A u = some (r, s') ∧
        (s'.storage ≠ s.storage → s'.counter = s.counter + 1) ∧
        (s'.storage = s.storage → s'.counter = s.counter)) := by
  have hA : 1 < A.length := by omega
  refine ⟨fun _ => rfl, ?_, ?_⟩
  · intro s u
    rcases ShortenURL_outcomes A s u with ⟨c, hl, e⟩ | ⟨_, hn, _⟩ | ⟨hu, code, _, _, e⟩ |
      ⟨hu, code, _, _, e⟩
    · refine ⟨_, _, e, fun _ => rfl, ?_⟩
      intro hu
      exact absurd ((GoMap.lookup_isSome_iff _ _).mp (by rw [hl]; rfl)) hu
    · obtain ⟨c, hc⟩ := ToBase62_total A hA (wrapInt64 (s.counter + 1))
      rw [hn] at hc
      cases hc
    · exact ⟨_, _, e, fun h => absurd h hu,
        fun _ => ⟨rfl, fun h0 h1 => wrapInt64_succ_of_lt _ h0 h1⟩⟩
    · exact ⟨_, _, e, fun h => absurd h hu,
        fun _ => ⟨rfl, fun h0 h1 => wrapInt64_succ_of_lt _ h0 h1⟩⟩
  · intro s hs hlt u
    have hinv := Reachable_inv A hA hnd s hs
    rcases ShortenURL_cases A hA hnd s hinv u with ⟨c, _, e⟩ | ⟨_, code, _, _, e⟩
    · exact ⟨_, _, e, fun h => absurd rfl h, fun _ => rfl⟩
    · refine ⟨_, _, e, fun _ => wrapInt64_succ _ hinv.counter_nonneg hlt, ?_⟩
      intro h
      exact absurd h (storage_cons_ne s.storage code u)

/-- C12 at concrete inputs: in the state after shortening `"a"` and `"b"`, the
new URL `"c"` raises the counter from `2` to `3` and `"a"` leaves it at `2`. -/
theorem counter_per_shorten_witness :
    (∃ r s', (⟨⟨[([50], [98]), ([49], [97])], [([98], [50]), ([97], [49])]⟩, 2⟩ :
        Service).ShortenURL digitsUpperLower [99] = some (r, s') ∧ s'.counter = 2 + 1) ∧
    (∃ r s', (⟨⟨[([50], [98]), ([49], [97])], [([98], [50]), ([97], [49])]⟩, 2⟩ :
        Service).ShortenURL digitsUpperLower [97] = some (r, s') ∧ s'.counter = 2) := by
  have h := (counter_per_shorten digitsUpperLower (by decide) (by decide)).2.1
  constructor
  · obtain ⟨r, s', h1, _, h3⟩ :=
      h ⟨⟨[([50], [98]), ([49], [97])], [([98], [50]), ([97], [49])]⟩, 2⟩ [99]
    exact ⟨r, s', h1, (h3 (by decide)).2 (by decide) (by decide)⟩
  · obtain ⟨r, s', h1, h2, _⟩ :=
      h ⟨⟨[([50], [98]), ([49], [97])], [([98], [50]), ([97], [49])]⟩, 2⟩ [97]
    exact ⟨r, s', h1, by rw [h2 (by decide)]⟩

/-- C12 as stated fails, in two states.  A service made over a store that
holds `("1", "x")`, counter `0`, asked to shorten `"y"`: the generated code `"1"`
is taken, the save fails, no record is created, and the counter is `1`
afterwards.  A service with the counter at the greatest `int64` and an empty
store, asked to shorten `"y"`: a record is created, under the code `""`, and the
counter is the least `int64` afterwards, not `1` higher. -/
theorem counter_raised_without_record :
    ((⟨⟨[([49], [120])], [([120], [49])]⟩, 0⟩ : Service).ShortenURL digitsUpperLower [121] =
      some (([], some (GoError.wrap "failed to save URL mapping: "
                (GoError.new "short code already exists"))),
        ⟨⟨[([49], [120])], [([120], [49])]⟩, 1⟩)) ∧
    ((⟨NewInMemoryStorage, maxInt64⟩ : Service).ShortenURL digitsUpperLower [121] =
      some (([], none), ⟨⟨[([], [121])], [([121], [])]⟩, minInt64⟩)) ∧
    minInt64 ≠ maxInt64 + 1 := by
  decide

/-- C18 (the counter and the store in reachable states).  With an alphabet of
62 pairwise distinct symbols, in every state a fresh service reaches by
sequential `ShortenURL` / `GetLongURL` calls without overflow of the counter:
the forward map has `counter` entries, one per key; its keys are exactly the
codes `ToBase62(i)` for `1 ≤ i ≤ counter`; the number encoded next is not `0`;
the code of `0` is not stored (when `alphabet[0]` is an ASCII byte, so that
`ToBase62(0)` is that one symbol); and the code generated next is not stored. -/
theorem counter_and_codes (A : List Byte) (hlen : A.length = 62) (hnd : A.Nodup)
    (s : Service) (hs : Reachable A s) :
    (s.storage.shortToLong.len : Int) = s.counter ∧
    s.storage.shortToLong.keys.Nodup ∧
    (∀ c, c ∈ s.storage.shortToLong.keys ↔
      ∃ i : Int, 1 ≤ i ∧ i ≤ s.counter ∧ base62.ToBase62 A i = some c) ∧
    wrapInt64 (s.counter + 1) ≠ 0 ∧
    (∀ a0, A[0]? = some a0 → a0.val < 128 →
      ∀ c0, base62.ToBase62 A 0 = some c0 → c0 ∉ s.storage.shortToLong.keys) ∧
    (∀ code, base62.ToBase62 A (wrapInt64 (s.counter + 1)) = some code →
      code ∉ s.storage.shortToLong.keys) := by
  have hA : 1 < A.length := by omega
  have hinv := Reachable_inv A hA hnd s hs
  refine ⟨hinv.short_len, hinv.short_nodup, ?_, ?_, ?_,
    fun code hcode => next_code_not_stored A hA hnd s hinv code hcode⟩
  · intro c
    rw [hinv.codes c]
    constructor
    · rintro ⟨i, h1, h2, h3⟩
      exact ⟨(i : Int), by omega, h2, h3⟩
    · rintro ⟨i, h1, h2, h3⟩
      obtain ⟨m, rfl⟩ := Int.eq_ofNat_of_zero_le (by omega : (0 : Int) ≤ i)
      exact ⟨m, by omega, h2, h3⟩
  · have h0 := hinv.counter_nonneg
    have h1 := hinv.counter_le
    unfold wrapInt64
    unfold maxInt64 at h1
    omega
  · intro a0 ha0 hascii c0 hc0 hmem
    obtain ⟨i, hi1, _, hi3⟩ := (hinv.codes c0).mp hmem
    have := ToBase62_nat_inj A hA hnd a0 ha0 i 0 (fun e => by omega) (fun _ => hascii)
      (by rw [hi3]; exact hc0.symm)
    omega

/-- C18 at a concrete input: the state after shortening `"a"` and `"b"`. -/
theorem counter_and_codes_witness :
    ((⟨⟨[([50], [98]), ([49], [97])], [([98], [50]), ([97], [49])]⟩, 2⟩ :
        Service).storage.shortToLong.len : Int) = 2 ∧
    ([51] : GoString) ∉ (⟨⟨[([50], [98]), ([49], [97])], [([98], [50]), ([97], [49])]⟩, 2⟩ :
        Service).storage.shortToLong.keys :=
  ⟨(counter_and_codes digitsUpperLower (by decide) (by decide) _ ⟨_, run_a_b⟩).1,
    (counter_and_codes digitsUpperLower (by decide) (by decide) _ ⟨_, run_a_b⟩).2.2.2.2.2
      [51] (by decide)⟩

/-! ## Code length, and negative arguments -/

namespace base62

/-- The code of a non-negative number `m` has `log₆₂ m + 1` symbols, when the
alphabet has 62 symbols and `alphabet[0]` is ASCII in case `m` is `0`. -/
theorem ToBase62_length (A : List Byte) (hlen : A.length = 62) (a0 : Byte)
    (h0 : A[0]? = some a0) (m : Nat) (hascii : m = 0 → a0.val < 128) :
    ∃ s, ToBase62 A (m : Int) = some s ∧ s.length = Nat.log 62 m + 1 := by
  have hA : 1 < A.length := by omega
  refine ⟨_, ToBase62_eq_digitsOf A hA a0 h0 m hascii, ?_⟩
  rw [List.length_reverse, List.length_map, hlen]
  unfold digitsOf
  split
  · next h => simp [h]
  · next h => exact Nat.digits_len 62 m (by omega) h

end base62

/-- C17 (code length grows at powers of 62).  With a 62-symbol alphabet, for
every integer `n ≥ 1` (every positive `int64` among them) and every `k ≥ 1`,
`ToBase62(n)` has exactly `k` symbols if and only if `62^(k-1) ≤ n < 62^k`;
the inputs `0 … 61` give 1 symbol and `62 … 3843` give 2 symbols; and the
length is non-decreasing in `n`.  Where the input `0` is concerned,
`alphabet[0]` is taken to be an ASCII byte, so that `string(alphabet[0])` is
one symbol. -/
theorem code_length (A : List Byte) (hlen : A.length = 62) (a0 : Byte)
    (h0 : A[0]? = some a0) :
    (∀ n : Int, 1 ≤ n → ∀ k : Nat, 1 ≤ k →
      ((∃ s, base62.ToBase62 A n = some s ∧ s.length = k) ↔
        (62 : Int) ^ (k - 1) ≤ n ∧ n < (62 : Int) ^ k)) ∧
    (a0.val < 128 → ∃ s, base62.ToBase62 A 0 = some s ∧ s.length = 1) ∧
    (∀ n : Int, 0 ≤ n → n ≤ 61 → (n = 0 → a0.val < 128) →
      ∃ s, base62.ToBase62 A n = some s ∧ s.length = 1) ∧
    (∀ n : Int, 62 ≤ n → n ≤ 3843 →
      ∃ s, base62.ToBase62 A n = some s ∧ s.length = 2) ∧
    (∀ m n : Int, m ≤ n → (m = 0 → a0.val < 128) →
      ∃ s t, base62.ToBase62 A m = some s ∧ base62.ToBase62 A n = some t ∧
        s.length ≤ t.length) := by
  refine ⟨?_, ?_, ?_, ?_, ?_⟩
  · intro n hn k hk
    obtain ⟨m, rfl⟩ := Int.eq_ofNat_of_zero_le (by omega : (0 : Int) ≤ n)
    have hm : m ≠ 0 := by omega
    obtain ⟨s, hs, hl⟩ := base62.ToBase62_length A hlen a0 h0 m (fun e => absurd e hm)
    have hlog : Nat.log 62 m = k - 1 ↔ 62 ^ (k - 1) ≤ m ∧ m < 62 ^ (k - 1 + 1) :=
      Nat.log_eq_iff (Or.inr ⟨by omega, hm⟩)
    have hk1 : k - 1 + 1 = k := by omega
    rw [hk1] at hlog
    have hcast : ((62 : Int) ^ (k - 1) ≤ (m : Int) ∧ (m : Int) < (62 : Int) ^ k) ↔
        (62 ^ (k - 1) ≤ m ∧ m < 62 ^ k) := by
      constructor
      · rintro ⟨a, b⟩
        exact ⟨by exact_mod_cast a, by exact_mod_cast b⟩
      · rintro ⟨a, b⟩
        exact ⟨by exact_mod_cast a, by exact_mod_cast b⟩
    rw [hcast, ← hlog]
    constructor
    · rintro ⟨t, ht, htl⟩
      rw [hs] at ht
      have := Option.some.inj ht
      rw [← this, hl] at htl
      omega
    · intro h
      exact ⟨s, hs, by omega⟩
  · intro hascii
    obtain ⟨s, hs, hl⟩ := base62.ToBase62_length A hlen a0 h0 0 (fun _ => hascii)
    exact ⟨s, hs, by simpa using hl⟩
  · intro n hn0 hn1 hascii
    obtain ⟨m, rfl⟩ := Int.eq_ofNat_of_zero_le hn0
    obtain ⟨s, hs, hl⟩ := base62.ToBase62_length A hlen a0 h0 m
      (fun e => hascii (by rw [e]; rfl))
    refine ⟨s, hs, ?_⟩
    rw [hl, Nat.log_of_lt (by omega)]
  · intro n hn0 hn1
    obtain ⟨m, rfl⟩ := Int.eq_ofNat_of_zero_le (by omega : (0 : Int) ≤ n)
    obtain ⟨s, hs, hl⟩ := base62.ToBase62_length A hlen a0 h0 m (fun e => by omega)
    refine ⟨s, hs, ?_⟩
    have : Nat.log 62 m = 1 :=
      (Nat.log_eq_iff (Or.inl (by omega))).mpr ⟨by omega, by omega⟩
    rw [hl, this]
  · intro m n hmn hascii
    rcases lt_or_le m 0 with hneg | hm
    · obtain ⟨t, ht⟩ := service.ToBase62_total A (by omega) n
      exact ⟨[], t, base62.ToBase62_neg A m hneg, ht, Nat.zero_le _⟩
    · obtain ⟨i, rfl⟩ := Int.eq_ofNat_of_zero_le hm
      obtain ⟨j, rfl⟩ := Int.eq_ofNat_of_zero_le (by omega : (0 : Int) ≤ n)
      have hij : i ≤ j := by omega
      obtain ⟨s, hs, hl⟩ := base62.ToBase62_length A hlen a0 h0 i
        (fun e => hascii (by rw [e]; rfl))
      obtain ⟨t, ht, htl⟩ := base62.ToBase62_length A hlen a0 h0 j
        (fun e => hascii (by omega))
      refine ⟨s, t, hs, ht, ?_⟩
      rw [hl, htl]
      exact Nat.succ_le_succ (Nat.log_mono_right hij)

/-- C17 at concrete inputs: with the alphabet `0-9 A-Z a-z`, the code of `3843`
has 2 symbols and the code of `3844` has 3. -/
theorem code_length_witness :
    ((∃ s, base62.ToBase62 digitsUpperLower 3843 = some s ∧ s.length = 2) ↔
      (62 : Int) ^ (2 - 1) ≤ 3843 ∧ (3843 : Int) < (62 : Int) ^ 2) ∧
    ((∃ s, base62.ToBase62 digitsUpperLower 3844 = some s ∧ s.length = 3) ↔
      (62 : Int) ^ (3 - 1) ≤ 3844 ∧ (3844 : Int) < (62 : Int) ^ 3) :=
  ⟨(code_length digitsUpperLower (by decide) 48 (by decide)).1 3843 (by decide) 2 (by decide),
    (code_length digitsUpperLower (by decide) 48 (by decide)).1 3844 (by decide) 3 (by decide)⟩

namespace service

theorem GenerateShortCode_neg (A : List Byte) (s : Service)
    (h : wrapInt64 (s.counter + 1) < 0) :
    s.GenerateShortCode A = some ([], { s with counter := wrapInt64 (s.counter + 1) }) := by
  simp [Service.GenerateShortCode, base62.ToBase62_neg A _ h]

/-- `k` calls of `GenerateShortCode` from a negative counter `c`, as long as
the counter stays negative: the counter is `c + k` afterwards. -/
theorem generateTimes_neg (A : List Byte) (st : InMemoryStorage) (k : Nat) (c : Int)
    (h0 : minInt64 ≤ c) (h1 : c + k ≤ -1) :
    generateTimes A k ⟨st, c⟩ = some ⟨st, c + k⟩ := by
  induction k generalizing c with
  | zero => simp [generateTimes]
  | succ k ih =>
    have hw : wrapInt64 (c + 1) = c + 1 :=
      wrapInt64_succ_of_lt c h0 (by unfold maxInt64; push_cast at h1; omega)
    have hneg : wrapInt64 ((⟨st, c⟩ : Service).counter + 1) < 0 := by
      simp only [hw]
      push_cast at h1
      omega
    unfold generateTimes
    rw [GenerateShortCode_neg A ⟨st, c⟩ hneg]
    simp only [hw]
    rw [ih (c + 1) (by omega) (by push_cast at h1 ⊢; omega)]
    congr 2
    push_cast
    ring

/-- From the greatest `int64`, `k + 1` calls of `GenerateShortCode` leave the
counter at the least `int64` plus `k`, for `k` below `2^63`. -/
theorem generateTimes_from_max (A : List Byte) (st : InMemoryStorage) (k : Nat)
    (hk : k < 2 ^ 63) :
    generateTimes A (k + 1) ⟨st, maxInt64⟩ = some ⟨st, minInt64 + k⟩ := by
  have hneg : wrapInt64 ((⟨st, maxInt64⟩ : Service).counter + 1) < 0 := by
    simp only [wrapInt64_max]
    decide
  unfold generateTimes
  rw [GenerateShortCode_neg A ⟨st, maxInt64⟩ hneg]
  simp only [wrapInt64_max]
  exact generateTimes_neg A st k minInt64 (le_refl _) (by unfold minInt64; omega)

end service

/-- C19, as the code has it.  For every integer `n < 0` (every negative
`int64` among them) and every alphabet, `ToBase62(n)` returns `""`; so
`ToBase62` is not injective on negative inputs; `GenerateShortCode` returns
`""` whenever the incremented counter is negative; and once the counter has
wrapped past `2^63 − 1`, the call that wraps it and each of the `2^63 − 1`
calls after it return `""`. -/
theorem negative_inputs_empty (A : List Byte) :
    (∀ n : Int, n < 0 → base62.ToBase62 A n = some []) ∧
    (∃ m n : Int, m < 0 ∧ n < 0 ∧ m ≠ n ∧ base62.ToBase62 A m = base62.ToBase62 A n) ∧
    (∀ s : Service, wrapInt64 (s.counter + 1) < 0 →
      s.GenerateShortCode A = some ([], { s with counter := wrapInt64 (s.counter + 1) })) ∧
    (∀ (st : InMemoryStorage) (k : Nat), k < 2 ^ 63 →
      ∃ s', generateTimes A k ⟨st, maxInt64⟩ = some s' ∧
        ∃ s'', s'.GenerateShortCode A = some ([], s'')) := by
  refine ⟨fun n hn => base62.ToBase62_neg A n hn, ⟨-1, -2, by decide, by decide, by decide, ?_⟩,
    fun s h => GenerateShortCode_neg A s h, ?_⟩
  · rw [base62.ToBase62_neg A (-1) (by decide), base62.ToBase62_neg A (-2) (by decide)]
  · intro st k hk
    cases k with
    | zero =>
      refine ⟨⟨st, maxInt64⟩, rfl, _, GenerateShortCode_neg A _ ?_⟩
      simp only [wrapInt64_max]
      decide
    | succ j =>
      refine ⟨_, generateTimes_from_max A st j (by omega), _, GenerateShortCode_neg A _ ?_⟩
      have hw : wrapInt64 (minInt64 + (j : Int) + 1) = minInt64 + (j : Int) + 1 :=
        wrapInt64_succ_of_lt _ (by omega) (by unfold minInt64 maxInt64; omega)
      simp only [hw]
      unfold minInt64
      omega

/-- C19 at a concrete input: with the alphabet `0-9 A-Z a-z`, the third call of
`GenerateShortCode` from the greatest `int64` on returns `""`. -/
theorem negative_inputs_empty_witness :
    ∃ s', generateTimes digitsUpperLower 2 ⟨NewInMemoryStorage, maxInt64⟩ = some s' ∧
      ∃ s'', s'.GenerateShortCode digitsUpperLower = some ([], s'') :=
  (negative_inputs_empty digitsUpperLower).2.2.2 NewInMemoryStorage 2 (by decide)

/-- C19 as stated fails for the calls that come later still: from the greatest
`int64`, the first call of `GenerateShortCode` wraps the counter and returns
`""`, after `2^63` calls the counter is `-1`, and the next call sets it to `0`
and returns `"0"` with the alphabet `0-9 A-Z a-z`, not `""`. -/
theorem later_call_returns_zero_code :
    (⟨NewInMemoryStorage, maxInt64⟩ : Service).GenerateShortCode digitsUpperLower =
      some ([], ⟨NewInMemoryStorage, minInt64⟩) ∧
    generateTimes digitsUpperLower (2 ^ 63) ⟨NewInMemoryStorage, maxInt64⟩ =
      some ⟨NewInMemoryStorage, -1⟩ ∧
    (⟨NewInMemoryStorage, -1⟩ : Service).GenerateShortCode digitsUpperLower =
      some ([48], ⟨NewInMemoryStorage, 0⟩) ∧
    ([48] : GoString) ≠ [] := by
  refine ⟨by decide, ?_, by decide, by decide⟩
  have h := generateTimes_from_max digitsUpperLower NewInMemoryStorage (2 ^ 63 - 1)
    (by norm_num)
  have e1 : 2 ^ 63 - 1 + 1 = 2 ^ 63 := by norm_num
  have e2 : minInt64 + ((2 ^ 63 - 1 : Nat) : Int) = -1 := by
    unfold minInt64
    norm_num
  rw [e1, e2] at h
  exact h

/-! ## Simultaneous callers -/

namespace service

open storage

/-- The three locked steps of one caller, made with no other caller in between,
are `ShortenURL`. -/
theorem runAlone_eq_ShortenURL (A : List Byte) (s : Service) (u : GoString) :
    Caller.runAlone A 3 s (Caller.ready u) =
      (s.ShortenURL A u).map (fun x => (x.2, Caller.done u x.1)) := by
  by_cases h : (s.storage.longToShort.index u).2 = true
  · simp [Caller.runAlone, Caller.advance, Caller.isDone, Service.ShortenURL,
      InMemoryStorage.GetShortCode, h]
  · cases hc : base62.ToBase62 A (wrapInt64 (s.counter + 1)) with
    | none =>
      simp [Caller.runAlone, Caller.advance, Caller.isDone, Service.ShortenURL,
        Service.GenerateShortCode, InMemoryStorage.GetShortCode, h, hc]
    | some code =>
      cases hw : (s.storage.Save code u).1 with
      | none =>
        simp [Caller.runAlone, Caller.advance, Caller.isDone, Service.ShortenURL,
          Service.GenerateShortCode, InMemoryStorage.GetShortCode, h, hc, hw]
      | some err =>
        simp [Caller.runAlone, Caller.advance, Caller.isDone, Service.ShortenURL,
          Service.GenerateShortCode, InMemoryStorage.GetShortCode, h, hc, hw]

theorem done_mem_swap (pre post : List Caller) (c c' : Caller) (hc : c.isDone = false)
    (hc' : c'.isDone = false) (u : GoString) (r : GoString × Option GoError) :
    Caller.done u r ∈ pre ++ c' :: post ↔ Caller.done u r ∈ pre ++ c :: post := by
  simp only [List.mem_append, List.mem_cons]
  constructor
  · rintro (h | h | h)
    · exact Or.inl h
    · rw [← h] at hc'
      simp [Caller.isDone] at hc'
    · exact Or.inr (Or.inr h)
  · rintro (h | h | h)
    · exact Or.inl h
    · rw [← h] at hc
      simp [Caller.isDone] at hc
    · exact Or.inr (Or.inr h)

/-- The URL of a caller that has not returned is not in the reverse map: only
the caller itself saves it, and the URLs of the callers are pairwise distinct. -/
theorem url_fresh (A : List Byte) (urls : List GoString) (hurls : urls.Nodup) (n : Nat)
    (s : Service) (pre post : List Caller) (c : Caller)
    (h : ConcInv A urls n s (pre ++ c :: post)) (hc : c.isDone = false) :
    c.longURL ∉ s.storage.longToShort.keys := by
  intro hmem
  obtain ⟨code, hcode⟩ := lookup_some_of_mem_keys _ _ hmem
  have h1 := (h.consistent code c.longURL).mpr hcode
  have h2 := (h.stored code c.longURL).mp h1
  have hnd : (pre.map Caller.longURL ++ c.longURL :: post.map Caller.longURL).Nodup := by
    have := h.urls_eq
    rw [List.map_append, List.map_cons] at this
    rw [this]
    exact hurls
  have hnot : c.longURL ∉ pre.map Caller.longURL ++ post.map Caller.longURL :=
    (List.nodup_cons.mp (List.nodup_middle.mp hnd)).1
  rcases List.mem_append.mp h2 with hp | hp
  · exact hnot (List.mem_append_left _ (List.mem_map.mpr ⟨_, hp, rfl⟩))
  · rcases List.mem_cons.mp hp with he | hp
    · rw [← he] at hc
      simp [Caller.isDone] at hc
    · exact hnot (List.mem_append_right _ (List.mem_map.mpr ⟨_, hp, rfl⟩))

/-- The code a caller has generated and not saved yet is not in the forward
map: the codes the callers hold are pairwise distinct. -/
theorem code_fresh (A : List Byte) (urls : List GoString) (n : Nat)
    (s : Service) (pre post : List Caller) (u code : GoString)
    (h : ConcInv A urls n s (pre ++ Caller.generated u code :: post)) :
    code ∉ s.storage.shortToLong.keys := by
  intro hmem
  obtain ⟨u', hu'⟩ := lookup_some_of_mem_keys _ _ hmem
  have h2 := (h.stored code u').mp hu'
  have hnd := h.codes_nodup
  rw [List.filterMap_append, List.filterMap_cons_some
    (rfl : Caller.codeOf (Caller.generated u code) = some code)] at hnd
  have hnot : code ∉ pre.filterMap Caller.codeOf ++ post.filterMap Caller.codeOf :=
    (List.nodup_cons.mp (List.nodup_middle.mp hnd)).1
  rcases List.mem_append.mp h2 with hp | hp
  · exact hnot (List.mem_append_left _ (List.mem_filterMap.mpr ⟨_, hp, rfl⟩))
  · rcases List.mem_cons.mp hp with he | hp
    · cases he
    · exact hnot (List.mem_append_right _ (List.mem_filterMap.mpr ⟨_, hp, rfl⟩))

/-- The step of a caller before `GetShortCode`: the URL is reported absent. -/
theorem ConcInv_check (A : List Byte) (urls : List GoString) (hurls : urls.Nodup) (n : Nat)
    (s : Service) (pre post : List Caller) (u : GoString)
    (h : ConcInv A urls n s (pre ++ Caller.ready u :: post)) :
    (Caller.ready u).advance A s = some (s, Caller.checked u) ∧
      ConcInv A urls (n + 1) s (pre ++ Caller.checked u :: post) := by
  have hu : u ∉ s.storage.longToShort.keys :=
    url_fresh A urls hurls n s pre post (Caller.ready u) h rfl
  have hl := (GoMap.lookup_eq_none_iff _ _).mpr hu
  refine ⟨?_, ?_⟩
  · simp [Caller.advance, InMemoryStorage.GetShortCode, GoMap.index_of_lookup_none _ _ hl]
  · refine ⟨?_, ?_, ?_, ?_, ?_, ?_, ?_, h.consistent, h.short_nodup, h.long_nodup, ?_,
      h.long_len⟩
    · have := h.urls_eq
      simpa [Caller.longURL] using this
    · have := h.phases
      simp only [List.map_append, List.map_cons, List.sum_append, List.sum_cons,
        Caller.phase] at this ⊢
      omega
    · have := h.counter_eq
      simpa [List.countP_append, List.countP_cons, Caller.hasGenerated] using this
    · have := h.codes
      simpa [List.filterMap_append, List.filterMap_cons, Caller.codeOf] using this
    · have := h.codes_nodup
      simpa [List.filterMap_append, List.filterMap_cons, Caller.codeOf] using this
    · intro u' r hm
      exact h.done_ok u' r ((done_mem_swap pre post (Caller.ready u) (Caller.checked u)
        rfl rfl u' r).mp hm)
    · intro code u'
      rw [h.stored code u']
      exact (done_mem_swap pre post (Caller.ready u) (Caller.checked u) rfl rfl _ _).symm
    · have := h.short_len
      simpa [List.countP_append, List.countP_cons, Caller.isDone] using this

/-- The step of a caller at `GenerateShortCode`: the counter rises by one
without overflow and the code of the new counter is one no caller holds. -/
theorem ConcInv_generate (A : List Byte) (hA : 1 < A.length) (hnd : A.Nodup)
    (urls : List GoString) (hN : (urls.length : Int) ≤ maxInt64) (n : Nat)
    (s : Service) (pre post : List Caller) (u : GoString)
    (h : ConcInv A urls n s (pre ++ Caller.checked u :: post)) :
    ∃ code, (Caller.checked u).advance A s =
        some ({ s with counter := s.counter + 1 }, Caller.generated u code) ∧
      ConcInv A urls (n + 1) { s with counter := s.counter + 1 }
        (pre ++ Caller.generated u code :: post) := by
  have hcount := h.counter_eq
  simp only [List.countP_append, List.countP_cons, Caller.hasGenerated, Bool.false_eq_true,
    if_false, Nat.add_zero] at hcount
  have hlen : urls.length = pre.length + (post.length + 1) := by
    rw [← h.urls_eq]
    simp
  have hp1 := List.countP_le_length Caller.hasGenerated (l := pre)
  have hp2 := List.countP_le_length Caller.hasGenerated (l := post)
  have hmax : s.counter < maxInt64 := by
    rw [hlen] at hN
    push_cast at hN hcount
    omega
  have h0 : 0 ≤ s.counter := by
    rw [hcount]
    exact Int.natCast_nonneg _
  have hw := wrapInt64_succ _ h0 hmax
  obtain ⟨m, hm⟩ := Int.eq_ofNat_of_zero_le h0
  have e1 : s.counter + 1 = ((m + 1 : Nat) : Int) := by
    rw [hm]
    norm_cast
  obtain ⟨code, hcode⟩ : ∃ code, base62.ToBase62 A (s.counter + 1) = some code := by
    rw [e1]
    exact ⟨_, base62.ToBase62_pos A hA (m + 1) (by omega)⟩
  refine ⟨code, ?_, ?_⟩
  · simp [Caller.advance, Service.GenerateShortCode, hw, hcode]
  · have hfresh : ∀ code' ∈ pre.filterMap Caller.codeOf ++ post.filterMap Caller.codeOf,
        ∃ i : Nat, 1 ≤ i ∧ (i : Int) ≤ s.counter ∧
          base62.ToBase62 A (i : Int) = some code' := by
      have := h.codes
      simpa [List.filterMap_append, List.filterMap_cons, Caller.codeOf] using this
    refine ⟨?_, ?_, ?_, ?_, ?_, ?_, ?_, h.consistent, h.short_nodup, h.long_nodup, ?_,
      h.long_len⟩
    · have := h.urls_eq
      simpa [Caller.longURL] using this
    · have := h.phases
      simp only [List.map_append, List.map_cons, List.sum_append, List.sum_cons,
        Caller.phase] at this ⊢
      omega
    · simp only [List.countP_append, List.countP_cons, Caller.hasGenerated, if_true]
      rw [hcount]
      push_cast
      ring
    · intro code' hmem
      rw [List.filterMap_append, List.filterMap_cons_some
        (rfl : Caller.codeOf (Caller.generated u _) = some _)] at hmem
      rcases List.mem_append.mp hmem with hp | hp
      · obtain ⟨i, hi1, hi2, hi3⟩ := hfresh code' (List.mem_append_left _ hp)
        exact ⟨i, hi1, by simp only; omega, hi3⟩
      · rcases List.mem_cons.mp hp with he | hp
        · exact ⟨m + 1, by omega, by simp only; omega, by rw [he, ← e1]; exact hcode⟩
        · obtain ⟨i, hi1, hi2, hi3⟩ := hfresh code' (List.mem_append_right _ hp)
          exact ⟨i, hi1, by simp only; omega, hi3⟩
    · rw [List.filterMap_append, List.filterMap_cons_some
        (rfl : Caller.codeOf (Caller.generated u _) = some _)]
      apply List.nodup_middle.mpr
      refine List.nodup_cons.mpr ⟨?_, ?_⟩
      · intro hmem
        obtain ⟨i, hi1, hi2, hi3⟩ := hfresh _ hmem
        have hc2 := hcode
        rw [e1] at hc2
        have := base62.ToBase62_pos_inj A hA hnd i (m + 1) (by omega) (by omega)
          (hi3.trans hc2.symm)
        omega
      · have := h.codes_nodup
        simpa [List.filterMap_append, List.filterMap_cons, Caller.codeOf] using this
    · intro u' r hm
      exact h.done_ok u' r ((done_mem_swap pre post (Caller.checked u)
        (Caller.generated u _) rfl rfl u' r).mp hm)
    · intro code' u'
      rw [h.stored code' u']
      exact (done_mem_swap pre post (Caller.checked u) (Caller.generated u _)
        rfl rfl _ _).symm
    · have := h.short_len
      simpa [List.countP_append, List.countP_cons, Caller.isDone] using this

/-- The step of a caller at `Save`: neither key is there, the pair is stored
and the caller returns its code with a nil error. -/
theorem ConcInv_save (A : List Byte) (urls : List GoString) (hurls : urls.Nodup) (n : Nat)
    (s : Service) (pre post : List Caller) (u code : GoString)
    (h : ConcInv A urls n s (pre ++ Caller.generated u code :: post)) :
    (Caller.generated u code).advance A s =
        some ({ s with storage := { shortToLong := (code, u) :: s.storage.shortToLong,
                                    longToShort := (u, code) :: s.storage.longToShort } },
          Caller.done u (code, none)) ∧
      ConcInv A urls (n + 1)
        { s with storage := { shortToLong := (code, u) :: s.storage.shortToLong,
                              longToShort := (u, code) :: s.storage.longToShort } }
        (pre ++ Caller.done u (code, none) :: post) := by
  have hu : u ∉ s.storage.longToShort.keys :=
    url_fresh A urls hurls n s pre post (Caller.generated u code) h rfl
  have hc := code_fresh A urls n s pre post u code h
  have hnd := h.codes_nodup
  rw [List.filterMap_append, List.filterMap_cons_some
    (rfl : Caller.codeOf (Caller.generated u code) = some code)] at hnd
  have hnot : code ∉ pre.filterMap Caller.codeOf ++ post.filterMap Caller.codeOf :=
    (List.nodup_cons.mp (List.nodup_middle.mp hnd)).1
  refine ⟨?_, ?_⟩
  · simp [Caller.advance, Save_of_absent _ _ _ hc hu]
  · refine ⟨?_, ?_, ?_, ?_, ?_, ?_, ?_, consistent_cons s.storage code u h.consistent hc hu,
      ?_, ?_, ?_, ?_⟩
    · have := h.urls_eq
      simpa [Caller.longURL] using this
    · have := h.phases
      simp only [List.map_append, List.map_cons, List.sum_append, List.sum_cons,
        Caller.phase] at this ⊢
      omega
    · have := h.counter_eq
      simpa [List.countP_append, List.countP_cons, Caller.hasGenerated] using this
    · have := h.codes
      simpa [List.filterMap_append, List.filterMap_cons, Caller.codeOf] using this
    · have := h.codes_nodup
      simpa [List.filterMap_append, List.filterMap_cons, Caller.codeOf] using this
    · intro u' r hm
      rcases List.mem_append.mp hm with hp | hp
      · exact h.done_ok u' r (List.mem_append_left _ hp)
      · rcases List.mem_cons.mp hp with he | hp
        · injection he with _ hr
          rw [hr]
        · exact h.done_ok u' r (List.mem_append_right _ (List.mem_cons_of_mem _ hp))
    · intro code' u'
      simp only [GoMap.lookup]
      by_cases hcc : code = code'
      · rw [if_pos hcc]
        constructor
        · intro e
          have := Option.some.inj e
          rw [← this, ← hcc]
          exact List.mem_append_right _ (List.mem_cons_self _ _)
        · intro hm
          rcases List.mem_append.mp hm with hp | hp
          · exact absurd (List.mem_append_left _
              (List.mem_filterMap.mpr ⟨_, hp, by rw [← hcc]; rfl⟩)) hnot
          · rcases List.mem_cons.mp hp with he | hp
            · injection he with hu' _
              rw [hu']
            · exact absurd (List.mem_append_right _
                (List.mem_filterMap.mpr ⟨_, hp, by rw [← hcc]; rfl⟩)) hnot
      · rw [if_neg hcc, h.stored code' u']
        constructor
        · intro hm
          rcases List.mem_append.mp hm with hp | hp
          · exact List.mem_append_left _ hp
          · rcases List.mem_cons.mp hp with he | hp
            · cases he
            · exact List.mem_append_right _ (List.mem_cons_of_mem _ hp)
        · intro hm
          rcases List.mem_append.mp hm with hp | hp
          · exact List.mem_append_left _ hp
          · rcases List.mem_cons.mp hp with he | hp
            · injection he with _ hr
              injection hr with hcode' _
              exact absurd hcode'.symm hcc
            · exact List.mem_append_right _ (List.mem_cons_of_mem _ hp)
    · simp only [GoMap.keys, List.map_cons, List.nodup_cons]
      exact ⟨hc, h.short_nodup⟩
    · simp only [GoMap.keys, List.map_cons, List.nodup_cons]
      exact ⟨hu, h.long_nodup⟩
    · have := h.short_len
      simp only [GoMap.len, List.length_cons, List.countP_append, List.countP_cons,
        Caller.isDone] at this ⊢
      simp only [Bool.false_eq_true, if_false, if_true] at this ⊢
      omega
    · have := h.long_len
      simp only [GoMap.len, List.length_cons] at this ⊢
      omega

/-- Under the invariant a caller that has not returned can make its step, and
the step keeps the invariant. -/
theorem ConcInv_advance (A : List Byte) (hA : 1 < A.length) (hnd : A.Nodup)
    (urls : List GoString) (hurls : urls.Nodup) (hN : (urls.length : Int) ≤ maxInt64)
    (n : Nat) (s : Service) (pre post : List Caller) (c : Caller)
    (h : ConcInv A urls n s (pre ++ c :: post)) (hc : c.isDone = false) :
    ∃ s' c', c.advance A s = some (s', c') ∧ ConcInv A urls (n + 1) s' (pre ++ c' :: post) := by
  cases c with
  | ready u =>
    obtain ⟨h1, h2⟩ := ConcInv_check A urls hurls n s pre post u h
    exact ⟨_, _, h1, h2⟩
  | checked u =>
    obtain ⟨code, h1, h2⟩ := ConcInv_generate A hA hnd urls hN n s pre post u h
    exact ⟨_, _, h1, h2⟩
  | generated u code =>
    obtain ⟨h1, h2⟩ := ConcInv_save A urls hurls n s pre post u code h
    exact ⟨_, _, h1, h2⟩
  | done u r => simp [Caller.isDone] at hc

theorem map_longURL_ready (urls : List GoString) :
    (urls.map Caller.ready).map Caller.longURL = urls := by
  induction urls with
  | nil => rfl
  | cons u t ih => simp [Caller.longURL, ih]

theorem sum_phase_ready (urls : List GoString) :
    ((urls.map Caller.ready).map Caller.phase).sum = 0 := by
  induction urls with
  | nil => rfl
  | cons u t ih =>
    simp only [List.map_cons, List.sum_cons, Caller.phase, ih]

theorem countP_hasGenerated_ready (urls : List GoString) :
    (urls.map Caller.ready).countP Caller.hasGenerated = 0 := by
  induction urls with
  | nil => rfl
  | cons u t ih => simp [List.countP_cons, Caller.hasGenerated, ih]

theorem countP_isDone_ready (urls : List GoString) :
    (urls.map Caller.ready).countP Caller.isDone = 0 := by
  induction urls with
  | nil => rfl
  | cons u t ih => simp [List.countP_cons, Caller.isDone, ih]

theorem filterMap_codeOf_ready (urls : List GoString) :
    (urls.map Caller.ready).filterMap Caller.codeOf = [] := by
  induction urls with
  | nil => rfl
  | cons u t ih => simp [List.filterMap_cons, Caller.codeOf, ih]

theorem done_not_mem_ready (urls : List GoString) (u : GoString)
    (r : GoString × Option GoError) : Caller.done u r ∉ urls.map Caller.ready := by
  intro h
  obtain ⟨x, _, hx⟩ := List.mem_map.mp h
  cases hx

/-- The invariant holds before the first step. -/
theorem ConcInv_start (A : List Byte) (urls : List GoString) :
    ConcInv A urls 0 (NewService NewInMemoryStorage) (urls.map Caller.ready) where
  urls_eq := map_longURL_ready urls
  phases := sum_phase_ready urls
  counter_eq := by
    rw [countP_hasGenerated_ready]
    rfl
  codes := by
    intro code hcode
    rw [filterMap_codeOf_ready] at hcode
    exact absurd hcode (List.not_mem_nil code)
  codes_nodup := by
    rw [filterMap_codeOf_ready]
    exact List.nodup_nil
  done_ok := fun u r h => absurd h (done_not_mem_ready urls u r)
  stored := by
    intro code u
    constructor
    · intro h
      simp [NewService, NewInMemoryStorage, GoMap.lookup] at h
    · intro h
      exact absurd h (done_not_mem_ready urls u _)
  consistent := consistent_fresh
  short_nodup := by simp [NewService, NewInMemoryStorage, GoMap.keys]
  long_nodup := by simp [NewService, NewInMemoryStorage, GoMap.keys]
  short_len := by
    rw [countP_isDone_ready]
    rfl
  long_len := rfl

/-- Every interleaving of the callers keeps the invariant. -/
theorem Interleaving_inv (A : List Byte) (hA : 1 < A.length) (hnd : A.Nodup)
    (urls : List GoString) (hurls : urls.Nodup) (hN : (urls.length : Int) ≤ maxInt64)
    (n : Nat) (b : Service × List Caller)
    (hrun : Interleaving A n (NewService NewInMemoryStorage, urls.map Caller.ready) b) :
    ConcInv A urls n b.1 b.2 := by
  generalize hinit : (NewService NewInMemoryStorage, urls.map Caller.ready) = a at hrun
  induction hrun with
  | start a =>
    rw [← hinit]
    exact ConcInv_start A urls
  | next n a b c _ hstep ih =>
    have ih' := ih hinit
    cases hstep with
    | mk s s' pre post c c' hadv =>
      have hc : c.isDone = false := by
        cases c with
        | done u r => simp [Caller.advance] at hadv
        | ready u => rfl
        | checked u => rfl
        | generated u code => rfl
      obtain ⟨s2, c2, h1, h2⟩ := ConcInv_advance A hA hnd urls hurls hN n s pre post c ih' hc
      rw [hadv] at h1
      obtain ⟨e1, e2⟩ := Prod.mk.inj (Option.some.inj h1)
      rw [e1, e2]
      exact h2

theorem phase_le (c : Caller) : c.phase ≤ 3 := by
  cases c <;> simp [Caller.phase]

theorem sum_phase_le (cs : List Caller) : (cs.map Caller.phase).sum ≤ 3 * cs.length := by
  induction cs with
  | nil => simp
  | cons c t ih =>
    have := phase_le c
    simp only [List.map_cons, List.sum_cons, List.length_cons]
    omega

theorem phase_of_isDone (c : Caller) (h : c.isDone = true) : c.phase = 3 := by
  cases c <;> simp [Caller.isDone] at h ⊢
  rfl

theorem phase_of_not_isDone (c : Caller) (h : c.isDone = false) : c.phase < 3 := by
  cases c <;> simp [Caller.isDone, Caller.phase] at h ⊢

/-- With steps left to make, some caller has not returned. -/
theorem exists_not_done (cs : List Caller) (h : (cs.map Caller.phase).sum < 3 * cs.length) :
    ∃ pre c post, cs = pre ++ c :: post ∧ c.isDone = false := by
  induction cs with
  | nil => simp at h
  | cons c t ih =>
    cases hc : c.isDone with
    | false => exact ⟨[], c, t, rfl, hc⟩
    | true =>
      have hp := phase_of_isDone c hc
      simp only [List.map_cons, List.sum_cons, List.length_cons, hp] at h
      obtain ⟨pre, c', post, e, hc'⟩ := ih (by omega)
      exact ⟨c :: pre, c', post, by rw [e]; rfl, hc'⟩

/-- With all steps made, every caller has returned. -/
theorem all_done (cs : List Caller) (h : (cs.map Caller.phase).sum = 3 * cs.length) :
    ∀ c ∈ cs, c.isDone = true := by
  induction cs with
  | nil => simp
  | cons c t ih =>
    have h1 := phase_le c
    have h2 := sum_phase_le t
    simp only [List.map_cons, List.sum_cons, List.length_cons] at h
    intro x hx
    rcases List.mem_cons.mp hx with e | hx
    · rw [e]
      cases hc : c.isDone with
      | true => rfl
      | false =>
        have := phase_of_not_isDone c hc
        omega
    · exact ih (by omega) x hx

end service

/-- C16 (concurrent shortening).  `N` pairwise distinct URLs are shortened by
`N` simultaneous callers on one fresh service (alphabet of 62 pairwise distinct
symbols, `N` within the `int64` range of the counter), each caller making the
three locked steps of `ShortenURL` (`GetShortCode`, `GenerateShortCode`, `Save`)
and the callers interleaving in any order.  Every interleaving has at most `3N`
steps; before the `3N`-th step some caller can always make its next step; and
after `3N` steps no step is left, every caller has returned a code with a nil
error, the code is stored with the caller's URL in both maps, the codes the
callers returned are pairwise distinct, each map has exactly `N` entries, one
per key, and the two maps agree (no forward key without its reverse key, nor
the other way round). -/
theorem concurrent_shortening (A : List Byte) (hlen : A.length = 62) (hnd : A.Nodup)
    (urls : List GoString) (hurls : urls.Nodup) (hN : (urls.length : Int) ≤ maxInt64)
    (n : Nat) (s : Service) (cs : List Caller)
    (hrun : Interleaving A n (NewService NewInMemoryStorage, urls.map Caller.ready) (s, cs)) :
    n ≤ 3 * urls.length ∧
    (n < 3 * urls.length → ∃ b, Step A (s, cs) b) ∧
    (n = 3 * urls.length →
      (∀ b, ¬ Step A (s, cs) b) ∧
      cs.map Caller.longURL = urls ∧
      (∀ c ∈ cs, ∃ code, c = Caller.done c.longURL (code, none) ∧
        s.storage.shortToLong.lookup code = some c.longURL ∧
        s.storage.longToShort.lookup c.longURL = some code) ∧
      (cs.filterMap Caller.codeOf).Nodup ∧
      s.storage.shortToLong.len = urls.length ∧
      s.storage.longToShort.len = urls.length ∧
      s.storage.shortToLong.keys.Nodup ∧
      s.storage.longToShort.keys.Nodup ∧
      (∀ code u, s.storage.shortToLong.lookup code = some u ↔
        s.storage.longToShort.lookup u = some code)) := by
  have hA : 1 < A.length := by omega
  have hinv : ConcInv A urls n s cs :=
    Interleaving_inv A hA hnd urls hurls hN n (s, cs) hrun
  have hcs : cs.length = urls.length := by
    rw [← hinv.urls_eq, List.length_map]
  have hle := sum_phase_le cs
  have hph := hinv.phases
  refine ⟨by omega, ?_, ?_⟩
  · intro hlt
    obtain ⟨pre, c, post, e, hc⟩ := exists_not_done cs (by omega)
    rw [e] at hinv
    obtain ⟨s', c', hadv, _⟩ := ConcInv_advance A hA hnd urls hurls hN n s pre post c hinv hc
    rw [e]
    exact ⟨_, Step.mk s s' pre post c c' hadv⟩
  · intro hn
    have hall := all_done cs (by omega)
    have hcount : cs.countP Caller.isDone = cs.length := List.countP_eq_length.mpr hall
    refine ⟨?_, hinv.urls_eq, ?_, hinv.codes_nodup, ?_, ?_, hinv.short_nodup,
      hinv.long_nodup, hinv.consistent⟩
    · intro b hstep
      generalize hcfg : (s, cs) = a at hstep
      cases hstep with
      | mk s0 s' pre post c c' hadv =>
        obtain ⟨_, e2⟩ := Prod.mk.inj hcfg
        have hc := hall c (by rw [e2]; exact List.mem_append_right _ (List.mem_cons_self _ _))
        cases c with
        | done u r => simp [Caller.advance] at hadv
        | ready u => simp [Caller.isDone] at hc
        | checked u => simp [Caller.isDone] at hc
        | generated u code => simp [Caller.isDone] at hc
    · intro c hc
      have hd := hall c hc
      cases c with
      | done u r =>
        obtain ⟨code, err⟩ := r
        have herr : err = none := hinv.done_ok u (code, err) hc
        subst herr
        have h1 := (hinv.stored code u).mpr hc
        exact ⟨code, rfl, h1, (hinv.consistent code u).mp h1⟩
      | ready u => simp [Caller.isDone] at hd
      | checked u => simp [Caller.isDone] at hd
      | generated u code => simp [Caller.isDone] at hd
    · rw [hinv.short_len, hcount, hcs]
    · rw [hinv.long_len, hinv.short_len, hcount, hcs]

/-- An interleaving of two callers that shorten `"a"` and `"b"` with the alphabet
`0-9 A-Z a-z`: both check, the caller of `"b"` generates first and gets `"1"`,
the caller of `"a"` gets `"2"` and saves first. -/
theorem interleaving_a_b :
    Interleaving digitsUpperLower 6
      (NewService NewInMemoryStorage, ([[97], [98]] : List GoString).map Caller.ready)
      (⟨⟨[([49], [98]), ([50], [97])], [([98], [49]), ([97], [50])]⟩, 2⟩,
        [Caller.done [97] ([50], none), Caller.done [98] ([49], none)]) :=
  Interleaving.next 5 _ _ _
    (Interleaving.next 4 _ _ _
      (Interleaving.next 3 _ _ _
        (Interleaving.next 2 _ _ _
          (Interleaving.next 1 _ _ _
            (Interleaving.next 0 _ _ _ (Interleaving.start _)
              (Step.mk (NewService NewInMemoryStorage) (NewService NewInMemoryStorage)
                [Caller.ready [97]] [] (Caller.ready [98]) (Caller.checked [98]) (by decide)))
            (Step.mk (NewService NewInMemoryStorage) (NewService NewInMemoryStorage)
              [] [Caller.checked [98]] (Caller.ready [97]) (Caller.checked [97]) (by decide)))
          (Step.mk (NewService NewInMemoryStorage) ⟨NewInMemoryStorage, 1⟩
            [Caller.checked [97]] [] (Caller.checked [98]) (Caller.generated [98] [49])
            (by decide)))
        (Step.mk ⟨NewInMemoryStorage, 1⟩ ⟨NewInMemoryStorage, 2⟩
          [] [Caller.generated [98] [49]] (Caller.checked [97]) (Caller.generated [97] [50])
          (by decide)))
      (Step.mk ⟨NewInMemoryStorage, 2⟩ ⟨⟨[([50], [97])], [([97], [50])]⟩, 2⟩
        [] [Caller.generated [98] [49]] (Caller.generated [97] [50])
        (Caller.done [97] ([50], none)) (by decide)))
    (Step.mk ⟨⟨[([50], [97])], [([97], [50])]⟩, 2⟩
      ⟨⟨[([49], [98]), ([50], [97])], [([98], [49]), ([97], [50])]⟩, 2⟩
      [Caller.done [97] ([50], none)] [] (Caller.generated [98] [49])
      (Caller.done [98] ([49], none)) (by decide))

/-- C16 at a concrete input: the interleaving `interleaving_a_b` of two callers,
which has made its `3 · 2` steps. -/
theorem concurrent_shortening_witness :
    (∀ b, ¬ Step digitsUpperLower
      (⟨⟨[([49], [98]), ([50], [97])], [([98], [49]), ([97], [50])]⟩, 2⟩,
        [Caller.done [97] ([50], none), Caller.done [98] ([49], none)]) b) ∧
    (⟨⟨[([49], [98]), ([50], [97])], [([98], [49]), ([97], [50])]⟩, 2⟩ :
      Service).storage.shortToLong.len = 2 ∧
    (⟨⟨[([49], [98]), ([50], [97])], [([98], [49]), ([97], [50])]⟩, 2⟩ :
      Service).storage.shortToLong.keys.Nodup := by
  have h := (concurrent_shortening digitsUpperLower (by decide) (by decide) [[97], [98]]
    (by decide) (by decide) 6 _ _ interleaving_a_b).2.2 rfl
  exact ⟨h.1, h.2.2.2.2.1, h.2.2.2.2.2.2.1⟩

end UrlShortener
